import Mathlib

/-!
Verification model of the taskarian Task engine (src/src/Task.ts).

A Task's computation takes a reject and a resolve callback and returns a
cancel handle.  The combinators are translated here as explicit state
machines: the synchronous part of a fork is a Lean function on a state
record, asynchronous settlement of a sub-task is an external event, and a
run is a fold of the step function over a schedule of events.  A sub-task
(leaf) is described by its observable behavior: it either settles
synchronously during fork (as Task.succeed / Task.fail do, returning a
no-op cancel handle) or stays pending and settles via an external event
(returning a real cancel handle that records its invocation and suppresses
later settlement, in the style of the clearTimeout leaves in the tests).
-/

set_option maxHeartbeats 1000000

namespace Taskarian

/-- Outcome delivered to the callbacks of a fork: `err e` means the reject
callback was invoked with `e`, `ok t` means the resolve callback was
invoked with `t`. -/
inductive Outcome (E T : Type) where
  | err : E → Outcome E T
  | ok : T → Outcome E T
deriving DecidableEq, Repr

/-- Whether an outcome is a success. -/
def Outcome.isOk {E T : Type} : Outcome E T → Bool
  | .ok _ => true
  | .err _ => false

/-- Whether an outcome is a failure. -/
def Outcome.isErr {E T : Type} : Outcome E T → Bool
  | .ok _ => false
  | .err _ => true

/-- Observable behavior of a sub-task when forked: `sync o` settles
synchronously during its fork with outcome `o` (like `Task.succeed` /
`Task.fail`); `async` stays pending and settles only through an external
event of the schedule. -/
inductive LeafB (E T : Type) where
  | sync : Outcome E T → LeafB E T
  | async : LeafB E T
deriving DecidableEq, Repr

/-- Whether a behavior is asynchronous. -/
def LeafB.isAsync {E T : Type} : LeafB E T → Bool
  | .sync _ => false
  | .async => true

/-- Whether an optional behavior is asynchronous. -/
def isAsyncO {E T : Type} : Option (LeafB E T) → Bool
  | some b => b.isAsync
  | none => false

/-- Runtime state of one sub-task instance: whether its fork has run,
whether it has settled (and with a success), whether its cancel handle has
taken effect, and how many times the cancel handle returned by its fork
has been invoked. -/
structure LeafSt where
  started : Bool := false
  settled : Bool := false
  settledOk : Bool := false
  cancelled : Bool := false
  handleInvoked : Nat := 0
deriving DecidableEq, Repr

instance : Inhabited LeafSt := ⟨{}⟩

/-- Invoking the cancel handle returned by a sub-task's fork: the
invocation is recorded and the sub-task is marked cancelled (for an
asynchronous leaf this suppresses later settlement; for a synchronous leaf
the handle is `noop` and there is nothing left to suppress). -/
def invokeHandle (l : LeafSt) : LeafSt :=
  { l with handleInvoked := l.handleInvoked + 1, cancelled := true }

/-- Marking a sub-task settled with success flag `b`, leaving the other
fields unchanged. -/
def markSettled (b : Bool) (l : LeafSt) : LeafSt :=
  { l with settled := true, settledOk := b }

@[simp] theorem markSettled_started (b : Bool) (l : LeafSt) :
    (markSettled b l).started = l.started := rfl

@[simp] theorem markSettled_settled (b : Bool) (l : LeafSt) :
    (markSettled b l).settled = true := rfl

@[simp] theorem markSettled_settledOk (b : Bool) (l : LeafSt) :
    (markSettled b l).settledOk = b := rfl

@[simp] theorem markSettled_cancelled (b : Bool) (l : LeafSt) :
    (markSettled b l).cancelled = l.cancelled := rfl

@[simp] theorem markSettled_handleInvoked (b : Bool) (l : LeafSt) :
    (markSettled b l).handleInvoked = l.handleInvoked := rfl

/-- Marking a sub-task started, leaving the other fields unchanged. -/
def markStarted (l : LeafSt) : LeafSt :=
  { l with started := true }

@[simp] theorem markStarted_started (l : LeafSt) :
    (markStarted l).started = true := rfl

@[simp] theorem markStarted_settled (l : LeafSt) :
    (markStarted l).settled = l.settled := rfl

@[simp] theorem markStarted_settledOk (l : LeafSt) :
    (markStarted l).settledOk = l.settledOk := rfl

@[simp] theorem markStarted_cancelled (l : LeafSt) :
    (markStarted l).cancelled = l.cancelled := rfl

@[simp] theorem markStarted_handleInvoked (l : LeafSt) :
    (markStarted l).handleInvoked = l.handleInvoked := rfl

namespace AndThenM

/-!
Model of `andThen` (src/src/Task.ts lines 440-459):

```
public andThen<A>(f: (t: T) => Task<E, A>): Task<E, A> {
  return new Task((reject, resolve) => {
    let innerCancel: Cancel | undefined;
    const outerCancel = this.fn(
      (err) => reject(err),
      (a: T) => { innerCancel = f(a).fork(reject, resolve); }
    );
    return () => {
      if (innerCancel) { innerCancel(); } else { outerCancel(); }
    };
  });
}
```

The first stage (`this`) is an abstract leaf with behavior `b1`; the
user's `f` yields, for the first stage's success value, the behavior of
the second stage.
-/

/-- State of one fork of `first.andThen f`. -/
structure St (E T A : Type) where
  first : LeafSt := {}
  second : LeafSt := {}
  /-- whether `innerCancel` has been assigned -/
  innerSet : Bool := false
  /-- number of invocations of the user's function `f` -/
  fCount : Nat := 0
  /-- behavior of the second stage, once `f` has produced it -/
  secondB : Option (LeafB E A) := none
  /-- outcomes delivered to the composed fork's reject/resolve callbacks -/
  out : List (Outcome E A) := []
deriving Repr

/-- The resolve callback of `andThen`:
`(a) => { innerCancel = f(a).fork(reject, resolve); }` — invokes `f`,
forks the resulting second stage (whose synchronous settlement goes
straight to the composed callbacks) and then assigns `innerCancel`. -/
def forkSecond {E T A : Type} (f : T → LeafB E A) (a : T) (st : St E T A) :
    St E T A :=
  let b := f a
  let st1 : St E T A :=
    { st with
      fCount := st.fCount + 1
      secondB := some b
      second := { st.second with started := true } }
  let st2 : St E T A :=
    match b with
    | .sync o =>
      { st1 with
        second := { st1.second with settled := true, settledOk := o.isOk }
        out := st1.out ++ [o] }
    | .async => st1
  { st2 with innerSet := true }

/-- The synchronous part of forking `first.andThen f`: runs the first
stage's fork with the callbacks of the source; a synchronous failure goes
to the composed reject, a synchronous success runs the resolve callback
above. -/
def forkAndThen {E T A : Type} (b1 : LeafB E T) (f : T → LeafB E A) :
    St E T A :=
  let st : St E T A := { first := { started := true } }
  match b1 with
  | .sync (.err e) =>
    { st with first := { st.first with settled := true }, out := [.err e] }
  | .sync (.ok a) =>
    forkSecond f a
      { st with first := { st.first with settled := true, settledOk := true } }
  | .async => st

/-- External events: asynchronous settlement of the first or of the
second stage, with an outcome chosen by the environment. -/
inductive Ev (E T A : Type) where
  | settleFirst : Outcome E T → Ev E T A
  | settleSecond : Outcome E A → Ev E T A

/-- Processing one external event.  A settlement fires only if the stage
is an asynchronous leaf that has started, has not settled and has not been
cancelled; it then runs the callback that `andThen` registered on that
stage. -/
def step {E T A : Type} (b1 : LeafB E T) (f : T → LeafB E A)
    (st : St E T A) : Ev E T A → St E T A
  | .settleFirst o =>
    if b1.isAsync && st.first.started && !st.first.settled
        && !st.first.cancelled then
      let st1 : St E T A :=
        { st with
          first := { st.first with settled := true, settledOk := o.isOk } }
      match o with
      | .err e => { st1 with out := st1.out ++ [.err e] }
      | .ok a => forkSecond f a st1
    else st
  | .settleSecond o =>
    if isAsyncO st.secondB && st.second.started && !st.second.settled
        && !st.second.cancelled then
      { st with
        second := { st.second with settled := true, settledOk := o.isOk }
        out := st.out ++ [o] }
    else st

/-- A run: the fork followed by a schedule of settlement events. -/
def run {E T A : Type} (b1 : LeafB E T) (f : T → LeafB E A)
    (s : List (Ev E T A)) : St E T A :=
  s.foldl (step b1 f) (forkAndThen b1 f)

/-- The cancel handle returned by `andThen`'s computation:
`() => { if (innerCancel) { innerCancel(); } else { outerCancel(); } }`. -/
def cancel {E T A : Type} (st : St E T A) : St E T A :=
  if st.innerSet then { st with second := invokeHandle st.second }
  else { st with first := invokeHandle st.first }

/-- Invariant of settle-only runs: no cancel handle has been invoked yet
and `innerCancel` is assigned exactly when the second stage has started. -/
def Inv {E T A : Type} (st : St E T A) : Prop :=
  st.first.handleInvoked = 0 ∧ st.second.handleInvoked = 0 ∧
    st.innerSet = st.second.started

theorem inv_forkSecond {E T A : Type} (f : T → LeafB E A) (a : T)
    (st : St E T A) (h : Inv st) : Inv (forkSecond f a st) := by
  obtain ⟨h1, h2, _⟩ := h
  unfold forkSecond
  cases f a <;> simp_all [Inv]

theorem inv_fork {E T A : Type} (b1 : LeafB E T) (f : T → LeafB E A) :
    Inv (forkAndThen b1 f) := by
  unfold forkAndThen
  match b1 with
  | .sync (.err e) => simp [Inv]
  | .sync (.ok a) => exact inv_forkSecond f a _ (by simp [Inv])
  | .async => simp [Inv]

theorem inv_step {E T A : Type} (b1 : LeafB E T) (f : T → LeafB E A)
    (st : St E T A) (e : Ev E T A) (h : Inv st) : Inv (step b1 f st e) := by
  obtain ⟨h1, h2, h3⟩ := h
  cases e with
  | settleFirst o =>
    unfold step
    by_cases hg : (b1.isAsync && st.first.started && !st.first.settled
        && !st.first.cancelled) = true
    · simp only [hg, if_pos]
      cases o with
      | err e => exact ⟨h1, h2, h3⟩
      | ok a => exact inv_forkSecond f a _ ⟨h1, h2, h3⟩
    · simp only [Bool.not_eq_true] at hg
      simp [hg, Inv, h1, h2, h3]
  | settleSecond o =>
    unfold step
    by_cases hg : (isAsyncO st.secondB && st.second.started
        && !st.second.settled && !st.second.cancelled) = true
    · simp only [hg, if_pos]
      exact ⟨h1, h2, by simpa using h3⟩
    · simp only [Bool.not_eq_true] at hg
      simp [hg, Inv, h1, h2, h3]

theorem inv_run {E T A : Type} (b1 : LeafB E T) (f : T → LeafB E A)
    (s : List (Ev E T A)) : Inv (run b1 f s) := by
  unfold run
  induction s using List.reverseRecOn with
  | nil => exact inv_fork b1 f
  | append_singleton xs x ih =>
    rw [List.foldl_append, List.foldl_cons, List.foldl_nil]
    exact inv_step b1 f _ x ih

end AndThenM

/-- Claim C1: for every first-stage behavior, every function producing the
second stage's behavior, and every schedule of asynchronous settlements,
the cancel handle returned by forking `t.andThen f` redirects to whichever
stage is live: invoked while the second stage has not started it invokes
the first stage's cancel handle (its cancellation side effect is observed
exactly once, the second stage's never); invoked after the second stage
started it invokes the second stage's cancel handle instead (exactly once,
the first stage's never). -/
theorem andThen_cancel_redirect (E T A : Type) (b1 : LeafB E T)
    (f : T → LeafB E A) (s : List (AndThenM.Ev E T A)) :
    (AndThenM.cancel (AndThenM.run b1 f s)).first.handleInvoked
        = (if (AndThenM.run b1 f s).second.started then 0 else 1) ∧
      (AndThenM.cancel (AndThenM.run b1 f s)).second.handleInvoked
        = (if (AndThenM.run b1 f s).second.started then 1 else 0) := by
  obtain ⟨h1, h2, h3⟩ := AndThenM.inv_run b1 f s
  unfold AndThenM.cancel
  by_cases hs : (AndThenM.run b1 f s).second.started = true
  · rw [h3, hs]
    simp [invokeHandle, h1, h2, hs]
  · simp only [Bool.not_eq_true] at hs
    rw [h3, hs]
    simp [invokeHandle, h1, h2, hs]

namespace SingleM

/-!
Model of forking a single task directly with the same outer callbacks:
used to compare `succeed(v).andThen(f)` with forking `f(v)` itself.
-/

/-- State of one direct fork of a single task. -/
structure St (E A : Type) where
  stage : LeafSt := {}
  out : List (Outcome E A) := []
deriving Repr

/-- The synchronous part of the direct fork. -/
def forkSingle {E A : Type} (b : LeafB E A) : St E A :=
  let st : St E A := { stage := { started := true } }
  match b with
  | .sync o =>
    { st with
      stage := { st.stage with settled := true, settledOk := o.isOk }
      out := [o] }
  | .async => st

/-- Asynchronous settlement of the directly forked task. -/
def step {E A : Type} (b : LeafB E A) (st : St E A) (o : Outcome E A) :
    St E A :=
  if b.isAsync && st.stage.started && !st.stage.settled
      && !st.stage.cancelled then
    { st with
      stage := { st.stage with settled := true, settledOk := o.isOk }
      out := st.out ++ [o] }
  else st

/-- A run: the fork followed by a schedule of settlement events. -/
def run {E A : Type} (b : LeafB E A) (s : List (Outcome E A)) : St E A :=
  s.foldl (step b) (forkSingle b)

/-- Invoking the cancel handle returned by the direct fork. -/
def cancel {E A : Type} (st : St E A) : St E A :=
  { st with stage := invokeHandle st.stage }

end SingleM

/-- Correspondence between a fork of `succeed(v).andThen(f)` and a direct
fork of `f(v)`: same delivered outcomes, identical second-stage state, the
user's `f` was invoked exactly once, and `innerCancel` is assigned. -/
def RelA {E T A : Type} (f : T → LeafB E A) (v : T)
    (stA : AndThenM.St E T A) (stS : SingleM.St E A) : Prop :=
  stA.out = stS.out ∧ stA.second = stS.stage ∧ stA.secondB = some (f v) ∧
    stA.innerSet = true ∧ stA.fCount = 1

theorem relA_fork {E T A : Type} (f : T → LeafB E A) (v : T) :
    RelA f v (AndThenM.forkAndThen (.sync (.ok v)) f)
      (SingleM.forkSingle (f v)) := by
  unfold AndThenM.forkAndThen SingleM.forkSingle AndThenM.forkSecond
  cases h : f v <;> simp_all [RelA]

theorem relA_step {E T A : Type} (f : T → LeafB E A) (v : T)
    (stA : AndThenM.St E T A) (stS : SingleM.St E A) (o : Outcome E A)
    (h : RelA f v stA stS) :
    RelA f v (AndThenM.step (.sync (.ok v)) f stA (.settleSecond o))
      (SingleM.step (f v) stS o) := by
  obtain ⟨h1, h2, h3, h4, h5⟩ := h
  unfold AndThenM.step SingleM.step
  rw [h1, h2, h3]
  by_cases hg : ((f v).isAsync && stS.stage.started && !stS.stage.settled
      && !stS.stage.cancelled) = true
  · simp only [isAsyncO, hg, if_pos]
    exact ⟨by simp, by simp, by simp, by simpa using h4, by simpa using h5⟩
  · simp only [isAsyncO]
    rw [if_neg hg, if_neg hg]
    exact ⟨h1, h2, h3, h4, h5⟩

theorem relA_run {E T A : Type} (f : T → LeafB E A) (v : T)
    (s : List (Outcome E A)) :
    RelA f v
      (AndThenM.run (.sync (.ok v)) f (s.map AndThenM.Ev.settleSecond))
      (SingleM.run (f v) s) := by
  unfold AndThenM.run SingleM.run
  induction s using List.reverseRecOn with
  | nil => exact relA_fork f v
  | append_singleton xs x ih =>
    rw [List.map_append, List.foldl_append, List.foldl_append]
    exact relA_step f v _ _ x ih

theorem run_fail_const {E T A : Type} (e : E) (f : T → LeafB E A)
    (s : List (AndThenM.Ev E T A)) :
    AndThenM.run (.sync (.err e)) f s
      = AndThenM.forkAndThen (.sync (.err e)) f := by
  unfold AndThenM.run
  induction s using List.reverseRecOn with
  | nil => rfl
  | append_singleton xs x ih =>
    rw [List.foldl_append, List.foldl_cons, List.foldl_nil, ih]
    cases x with
    | settleFirst o => simp [AndThenM.step, LeafB.isAsync]
    | settleSecond o =>
      simp [AndThenM.step, AndThenM.forkAndThen, isAsyncO]

/-- Claim C8: for every value `v`, error `e`, function `f` and schedule of
second-stage settlements, a fork of `Task.succeed(v).andThen(f)` behaves
identically to a direct fork of `f(v)` — the same outcomes are delivered
to the same callbacks, the second-stage state coincides, the cancel
handle redirects to `f(v)`'s cancel handle, and `f` is invoked exactly
once — while a fork of `Task.fail(e).andThen(f)` rejects with `e` and
never invokes `f`, for every schedule. -/
theorem succeed_fail_andThen_laws (E T A : Type) (v : T) (e : E)
    (f : T → LeafB E A) (s : List (Outcome E A))
    (s2 : List (AndThenM.Ev E T A)) :
    ((AndThenM.run (.sync (.ok v)) f (s.map AndThenM.Ev.settleSecond)).out
        = (SingleM.run (f v) s).out ∧
      (AndThenM.run (.sync (.ok v)) f (s.map AndThenM.Ev.settleSecond)).second
        = (SingleM.run (f v) s).stage ∧
      (AndThenM.cancel
          (AndThenM.run (.sync (.ok v)) f
            (s.map AndThenM.Ev.settleSecond))).second
        = (SingleM.cancel (SingleM.run (f v) s)).stage ∧
      (AndThenM.run (.sync (.ok v)) f
          (s.map AndThenM.Ev.settleSecond)).fCount = 1) ∧
    ((AndThenM.run (.sync (.err e)) f s2).out = [.err e] ∧
      (AndThenM.run (.sync (.err e)) f s2).fCount = 0) := by
  obtain ⟨h1, h2, h3, h4, h5⟩ := relA_run f v s
  refine ⟨⟨h1, h2, ?_, h5⟩, ?_⟩
  · unfold AndThenM.cancel SingleM.cancel
    rw [h4]
    simp [h2]
  · rw [run_fail_const e f s2]
    exact ⟨rfl, rfl⟩

/-!
Synchronous fragment of the engine.  Tasks built from `succeed` / `fail`
and the sequencing combinators settle during the fork itself; their
computations are translated directly, with the reject / resolve callbacks
as state transformers over an instrumentation state.  Cancellation is not
observable in this fragment (every cancel handle of it is a no-op by the
time fork returns); the cancellation bookkeeping of `andThen` is modelled
by the machines above.
-/

/-- A synchronous computation: given the reject and resolve callbacks, it
transforms the instrumentation state. -/
def Comp (σ E T : Type) := (E → σ → σ) → (T → σ → σ) → σ → σ

namespace SyncC

/-- `Task.succeed(t)`: `(_reject, resolve) => { resolve(t); return noop; }`. -/
def succeed {σ E T : Type} (t : T) : Comp σ E T :=
  fun _reject resolve s => resolve t s

/-- `Task.fail(err)`: `(reject, _resolve) => { reject(err); return noop; }`. -/
def fail {σ E T : Type} (err : E) : Comp σ E T :=
  fun reject _resolve s => reject err s

/-- `map(f)`: `this.fn((err) => reject(err), (a) => resolve(f(a)))`. -/
def map {σ E T A : Type} (m : Comp σ E T) (f : T → A) : Comp σ E A :=
  fun reject resolve s =>
    m (fun err s1 => reject err s1) (fun a s1 => resolve (f a) s1) s

/-- `andThen(f)` restricted to its settlement behavior:
`this.fn((err) => reject(err), (a) => { f(a).fork(reject, resolve) })`. -/
def andThen {σ E T A : Type} (m : Comp σ E T) (f : T → Comp σ E A) :
    Comp σ E A :=
  fun reject resolve s =>
    m (fun err s1 => reject err s1) (fun a s1 => f a reject resolve s1) s

end SyncC

/-- JS-like values for the `assign` scenario: numbers, strings and records
(field lists in JS insertion order). -/
inductive Val where
  | vnat : Nat → Val
  | vstr : String → Val
  | vrec : List (String × Val) → Val

/-- First value bound to key `k` in a field list. -/
def getField : List (String × Val) → String → Option Val
  | [], _ => none
  | (k1, v) :: rest, k => if k1 = k then some v else getField rest k

/-- JS object update `{ ...fields, [k]: a }`: an existing key keeps its
position and its value is overwritten, a new key is appended. -/
def setField : List (String × Val) → String → Val → List (String × Val)
  | [], k, a => [(k, a)]
  | (k1, v) :: rest, k, a =>
    if k1 = k then (k1, a) :: rest else (k1, v) :: setField rest k a

/-- The record built by `assign`'s map step: `{ ...Object(t), [k]: a }`.
Spreading a non-record value contributes no own enumerable properties. -/
def insertField (t : Val) (k : String) (a : Val) : Val :=
  match t with
  | .vrec fs => .vrec (setField fs k a)
  | _ => .vrec [(k, a)]

/-- The second argument of `assign`: a fixed task or a function from the
current record to a task. -/
inductive AssignArg (σ E : Type) where
  | task : Comp σ E Val → AssignArg σ E
  | fn : (Val → Comp σ E Val) → AssignArg σ E

namespace SyncC

/-- `assign(k, other)`:
`this.andThen((t) => { const task = typeof other === 'function' ? other(t) : other; return task.map((a) => ({ ...Object(t), [k.toString()]: a })); })`. -/
def assign {σ E : Type} (m : Comp σ E Val) (k : String)
    (other : AssignArg σ E) : Comp σ E Val :=
  andThen m (fun t =>
    let task :=
      match other with
      | .task c => c
      | .fn f => f t
    map task (fun a => insertField t k a))

end SyncC

/-- Instrumentation state for the assign-chain scenario: the outcomes
delivered to the outer callbacks and the number of invocations of the
function supplied for `z`. -/
structure C9St where
  out : List (Outcome Val Val) := []
  zCount : Nat := 0

/-- Fork a synchronous computation with callbacks that record the
delivered outcome. -/
def runC9 (m : Comp C9St Val Val) : C9St :=
  m (fun e s => { s with out := s.out ++ [.err e] })
    (fun t s => { s with out := s.out ++ [.ok t] }) {}

/-- Numeric value of field `k` of a record (`s.x`-style access on the
scenario's records). -/
def getNat (t : Val) (k : String) : Nat :=
  match t with
  | .vrec fs =>
    match getField fs k with
    | some (.vnat n) => n
    | _ => 0
  | _ => 0

/-- The function supplied for `z`: its invocation is recorded, and it
returns `Task.succeed(String(s.x + s.y))`. -/
def zFun (t : Val) : Comp C9St Val Val :=
  fun reject resolve s =>
    SyncC.succeed (Val.vstr (toString (getNat t "x" + getNat t "y")))
      reject resolve { s with zCount := s.zCount + 1 }

/-- `Task.succeed({}).assign('x', Task.succeed(42)).assign('y',
Task.succeed(8)).assign('z', (s) => Task.succeed(String(s.x + s.y)))`. -/
def c9Chain : Comp C9St Val Val :=
  SyncC.assign
    (SyncC.assign
      (SyncC.assign (SyncC.succeed (Val.vrec []))
        "x" (.task (SyncC.succeed (Val.vnat 42))))
      "y" (.task (SyncC.succeed (Val.vnat 8))))
    "z" (.fn zFun)

/-- The same chain with the `y` assignment failing. -/
def c9ChainFail : Comp C9St Val Val :=
  SyncC.assign
    (SyncC.assign
      (SyncC.assign (SyncC.succeed (Val.vrec []))
        "x" (.task (SyncC.succeed (Val.vnat 42))))
      "y" (.task (SyncC.fail (Val.vstr "Ooops!"))))
    "z" (.fn zFun)

/-- Claim C9: the assign chain starting from the empty record, assigning
`x` to 42, `y` to 8 and `z` to `String(x + y)`, resolves with the record
`{x: 42, y: 8, z: "50"}` (invoking `z`'s function once); if the `y`
assignment fails, the composed task rejects with that error and `z`'s
function is never invoked. -/
theorem assign_chain_result :
    (runC9 c9Chain).out
        = [.ok (Val.vrec
            [("x", .vnat 42), ("y", .vnat 8), ("z", .vstr "50")])] ∧
      (runC9 c9Chain).zCount = 1 ∧
      (runC9 c9ChainFail).out = [.err (Val.vstr "Ooops!")] ∧
      (runC9 c9ChainFail).zCount = 0 :=
  ⟨rfl, rfl, rfl, rfl⟩

/-- Pointwise update of an index-keyed store (a JS array / record cell
assignment). -/
def fupd {α : Type} (f : Nat → α) (i : Nat) (a : α) : Nat → α :=
  fun j => if j = i then a else f j

/-- Whether an outcome of a joined task is a failure. -/
def isErrO {E A : Type} : Outcome E A → Bool
  | .err _ => true
  | .ok _ => false

/-- Whether an outcome of a joined task is a success. -/
def isOkO {E A : Type} : Outcome E A → Bool
  | .err _ => false
  | .ok _ => true

namespace AllM

/-!
Model of `Task.all` (src/src/Task.ts lines 186-212):

```
public static all<E, T>(ts: Array<Task<E, T>>): Task<E, T[]> {
  const length = ts.length;
  if (length === 0) { return Task.succeed([]); }
  return new Task((reject, resolve) => {
    let resolved = 0;
    const tasks = ts;
    const results: T[] = [];
    const cancels: Record<number, Cancel> = {};
    const resolveIdx = (idx: number) => (result: T) => {
      resolved = resolved + 1;
      results[idx] = result;
      cancels[idx] = noop;
      if (resolved === length) { resolve(results); }
    };
    tasks.forEach((task, index) => {
      cancels[index] = task.fork(reject, resolveIdx(index));
    });
    return () => {
      Object.entries(cancels).forEach(([_, cancel]) => cancel());
    };
  });
}
```

Each input task is an abstract leaf with a `LeafB` behavior; the joined
fork's reject/resolve callbacks are recorded in `out` (the joined value is
the `results` array, a map from index to the recorded result).
-/

/-- A cancel slot of the `cancels` record: either the combinator's `noop`
(written by `resolveIdx`) or the handle returned by sub-task `i`'s fork. -/
inductive Slot where
  | noopS : Slot
  | handleOf : Nat → Slot
deriving DecidableEq, Repr

instance : Inhabited Slot := ⟨.noopS⟩

/-- State of one fork of `Task.all ts`. -/
structure St (E T : Type) where
  resolved : Nat := 0
  results : Nat → Option T := fun _ => none
  slots : Nat → Slot := fun _ => .noopS
  leaves : Nat → LeafSt := fun _ => {}
  out : List (Outcome E (List (Option T))) := []

/-- `resolveIdx(idx)(result)`: count the success, record the result,
replace the slot with `noop`, and resolve the joined task with the
`results` array once `resolved === length`. -/
def resolveIdx {E T : Type} (length idx : Nat) (result : T) (st : St E T) :
    St E T :=
  let st1 : St E T :=
    { st with
      resolved := st.resolved + 1
      results := fupd st.results idx (some result)
      slots := fupd st.slots idx .noopS }
  if st1.resolved = length then
    { st1 with out := st1.out ++ [.ok ((List.range length).map st1.results)] }
  else st1

/-- Settlement of sub-task `i` with outcome `o`: the leaf is marked
settled and the callback that `all` registered on it runs — the joined
`reject` itself for a failure, `resolveIdx i` for a success. -/
def dispatch {E T : Type} (ds : List (LeafB E T)) (i : Nat) (o : Outcome E T)
    (st : St E T) : St E T :=
  let st1 : St E T :=
    { st with leaves := fupd st.leaves i (markSettled o.isOk (st.leaves i)) }
  match o with
  | .err e => { st1 with out := st1.out ++ [.err e] }
  | .ok t => resolveIdx ds.length i t st1

/-- One iteration of the start loop:
`cancels[index] = task.fork(reject, resolveIdx(index))` — the fork may
settle synchronously (running its callback, which for a success writes a
`noop` slot), and the handle returned by the fork is then assigned to the
slot, overwriting whatever the callback wrote. -/
def forkLeaf {E T : Type} (ds : List (LeafB E T)) (i : Nat) (st : St E T) :
    St E T :=
  let st1 : St E T :=
    { st with leaves := fupd st.leaves i (markStarted (st.leaves i)) }
  let st2 : St E T :=
    match ds.getD i .async with
    | .sync o => dispatch ds i o st1
    | .async => st1
  { st2 with slots := fupd st2.slots i (.handleOf i) }

/-- The synchronous part of forking `Task.all ts`: the empty input returns
`Task.succeed([])`; otherwise every sub-task is forked in index order. -/
def forkAll {E T : Type} (ds : List (LeafB E T)) : St E T :=
  if ds.length = 0 then { out := [.ok []] }
  else (List.range ds.length).foldl (fun st i => forkLeaf ds i st) {}

/-- External event: asynchronous settlement of sub-task `i` with outcome
`o`; it fires only if the leaf is asynchronous, started, unsettled and not
cancelled. -/
def settle {E T : Type} (ds : List (LeafB E T)) (i : Nat) (o : Outcome E T)
    (st : St E T) : St E T :=
  if (ds.getD i .async).isAsync && (st.leaves i).started
      && !(st.leaves i).settled && !(st.leaves i).cancelled then
    dispatch ds i o st
  else st

/-- A run: the fork followed by a schedule of settlement events. -/
def runAll {E T : Type} (ds : List (LeafB E T))
    (s : List (Nat × Outcome E T)) : St E T :=
  s.foldl (fun st e => settle ds e.1 e.2 st) (forkAll ds)

/-- Invoking one recorded cancel slot. -/
def invokeSlot {E T : Type} (st : St E T) : Slot → St E T
  | .noopS => st
  | .handleOf i =>
    { st with leaves := fupd st.leaves i (invokeHandle (st.leaves i)) }

/-- The cancel handle returned by `all`'s computation:
`Object.entries(cancels).forEach(([_, cancel]) => cancel())` — invokes
the current slot of every index (ascending integer-key order). -/
def cancelAllJ {E T : Type} (ds : List (LeafB E T)) (st : St E T) : St E T :=
  (List.range ds.length).foldl (fun st1 i => invokeSlot st1 (st1.slots i)) st

/-- A sub-task state whose success has been recorded. -/
def okP (l : LeafSt) : Bool := l.settled && l.settledOk

/-- A sub-task state that settled with a failure. -/
def errP (l : LeafSt) : Bool := l.settled && !l.settledOk

/-- Number of indices below `m` whose sub-task state satisfies `p`. -/
def countF (m : Nat) (f : Nat → LeafSt) (p : LeafSt → Bool) : Nat :=
  (List.range m).countP (fun i => p (f i))

theorem okP_markSettled (b : Bool) (l : LeafSt) :
    okP (markSettled b l) = b := by
  simp [okP]

theorem errP_markSettled (b : Bool) (l : LeafSt) :
    errP (markSettled b l) = !b := by
  simp [errP]

theorem countF_succ (m : Nat) (f : Nat → LeafSt) (p : LeafSt → Bool) :
    countF (m + 1) f p = countF m f p + (if p (f m) then 1 else 0) := by
  unfold countF
  rw [List.range_succ, List.countP_append, List.countP_singleton]

theorem countF_fupd (m : Nat) (f : Nat → LeafSt) (p : LeafSt → Bool)
    (i : Nat) (hi : i < m) (v : LeafSt) :
    countF m (fupd f i v) p + (if p (f i) then 1 else 0)
      = countF m f p + (if p v then 1 else 0) := by
  have hmem : i ∈ List.range m := List.mem_range.mpr hi
  have hperm := List.perm_cons_erase hmem
  have hnd := List.nodup_range m
  unfold countF
  rw [hperm.countP_eq (fun j => p (fupd f i v j)),
    hperm.countP_eq (fun j => p (f j)), List.countP_cons, List.countP_cons]
  have hni : i ∉ (List.range m).erase i := hnd.not_mem_erase
  have hcong : ((List.range m).erase i).countP (fun j => p (fupd f i v j))
      = ((List.range m).erase i).countP (fun j => p (f j)) := by
    apply List.countP_congr
    intro j hj
    have hne : j ≠ i := by
      rintro rfl
      exact hni hj
    simp [fupd, hne]
  rw [hcong]
  have hv : fupd f i v i = v := by simp [fupd]
  rw [hv]
  omega

theorem countF_le (m : Nat) (f : Nat → LeafSt) (p : LeafSt → Bool) :
    countF m f p ≤ m := by
  have := List.countP_le_length (p := fun i => p (f i)) (l := List.range m)
  simpa [countF] using this

theorem countF_eq_iff (m : Nat) (f : Nat → LeafSt) (p : LeafSt → Bool) :
    countF m f p = m ↔ ∀ i, i < m → p (f i) = true := by
  constructor
  · intro h i hi
    have := (List.countP_eq_length (p := fun i => p (f i))
      (l := List.range m)).mp (by simpa [countF] using h)
    exact this i (List.mem_range.mpr hi)
  · intro h
    have : ∀ a ∈ List.range m, (fun i => p (f i)) a = true := by
      intro a ha
      exact h a (List.mem_range.mp ha)
    have := (List.countP_eq_length (p := fun i => p (f i))
      (l := List.range m)).mpr this
    simpa [countF] using this

end AllM

theorem fupd_self {α : Type} (f : Nat → α) (i : Nat) (v : α) :
    fupd f i v i = v := by
  simp [fupd]

theorem fupd_ne {α : Type} (f : Nat → α) (i j : Nat) (v : α) (h : j ≠ i) :
    fupd f i v j = f j := by
  simp [fupd, h]

namespace AllM

/-- Invariant of a fork of `Task.all ts` once the first `m` sub-tasks of
the start loop have been forked; it is maintained by every settlement
event.  It records: no cancel handle has been invoked; indices not yet
forked are untouched; forked leaves are started; a recorded success
implies a settlement; a cancel slot is the combinator's `noop` exactly for
an asynchronous leaf whose success has been recorded (synchronously
settling sub-tasks get their fork's returned handle written after the
callback ran); slots only ever hold the owning index's handle; `resolved`
counts recorded successes; the joined reject fired once per observed
failure; the joined resolve fired exactly once if `resolved` reached the
input length. -/
structure GInv {E T : Type} (ds : List (LeafB E T)) (m : Nat)
    (st : St E T) : Prop where
  hand : ∀ i, (st.leaves i).handleInvoked = 0
  canc : ∀ i, (st.leaves i).cancelled = false
  hiS : ∀ i, m ≤ i → st.leaves i = {} ∧ st.slots i = .noopS
  loS : ∀ i, i < m → (st.leaves i).started = true
  okset : ∀ i, (st.leaves i).settledOk = true → (st.leaves i).settled = true
  char : ∀ i, i < m → (st.slots i = .noopS ↔
    ((ds.getD i .async).isAsync = true ∧ (st.leaves i).settledOk = true))
  slotid : ∀ i, st.slots i = .noopS ∨ st.slots i = .handleOf i
  res : st.resolved = countF m st.leaves okP
  errs : st.out.countP isErrO = countF m st.leaves errP
  oks : st.out.countP isOkO = (if st.resolved = ds.length then 1 else 0)

theorem fupd_forall {α : Type} (f : Nat → α) (i : Nat) (v : α)
    (P : α → Prop) (hf : ∀ j, P (f j)) (hv : P v) :
    ∀ j, P (fupd f i v j) := by
  intro j
  by_cases hj : j = i
  · rw [hj, fupd_self]
    exact hv
  · rw [fupd_ne _ _ _ _ hj]
    exact hf j

theorem fupd_fupd_self {α : Type} (f : Nat → α) (i : Nat) (a b : α) :
    fupd (fupd f i a) i b = fupd f i b := by
  funext j
  by_cases hj : j = i <;> simp [fupd, hj]

theorem countF_fupd_ge (m : Nat) (f : Nat → LeafSt) (p : LeafSt → Bool)
    (i : Nat) (hi : m ≤ i) (v : LeafSt) :
    countF m (fupd f i v) p = countF m f p := by
  unfold countF
  apply List.countP_congr
  intro j hj
  have hne : j ≠ i := by
    have := List.mem_range.mp hj
    omega
  rw [fupd_ne _ _ _ _ hne]

theorem countF_succ_fupd (m : Nat) (f : Nat → LeafSt) (p : LeafSt → Bool)
    (v : LeafSt) :
    countF (m + 1) (fupd f m v) p
      = countF m f p + (if p v then 1 else 0) := by
  rw [countF_succ, countF_fupd_ge m f p m le_rfl v, fupd_self]

theorem ginv_settle {E T : Type} (ds : List (LeafB E T)) (i : Nat)
    (o : Outcome E T) (st : St E T) (h : GInv ds ds.length st) :
    GInv ds ds.length (settle ds i o st) := by
  unfold settle
  by_cases hg : ((ds.getD i .async).isAsync && (st.leaves i).started
      && !(st.leaves i).settled && !(st.leaves i).cancelled) = true
  · rw [if_pos hg]
    simp only [Bool.and_eq_true, Bool.not_eq_true'] at hg
    obtain ⟨⟨⟨hA, hStart⟩, hNS⟩, hNC⟩ := hg
    have hin : i < ds.length := by
      by_contra hni
      have hdef := (h.hiS i (Nat.le_of_not_lt hni)).1
      rw [hdef] at hStart
      simp at hStart
    have hOkPre : (st.leaves i).settledOk = false := by
      by_contra hok
      rw [Bool.not_eq_false] at hok
      rw [h.okset i hok] at hNS
      simp at hNS
    have hokold : okP (st.leaves i) = false := by
      simp [okP, hNS]
    have herrold : errP (st.leaves i) = false := by
      simp [errP, hNS]
    have hres_ne : st.resolved ≠ ds.length := by
      intro he
      have hcnt : countF ds.length st.leaves okP = ds.length := by
        rw [← h.res]
        exact he
      have hall := (countF_eq_iff ds.length st.leaves okP).mp hcnt i hin
      rw [hokold] at hall
      simp at hall
    cases o with
    | err e =>
      have hcok := countF_fupd ds.length st.leaves okP i hin
        (markSettled false (st.leaves i))
      rw [hokold, okP_markSettled] at hcok
      simp at hcok
      have hcerr := countF_fupd ds.length st.leaves errP i hin
        (markSettled false (st.leaves i))
      rw [herrold, errP_markSettled] at hcerr
      simp at hcerr
      have hLv : (dispatch ds i (.err e) st).leaves
          = fupd st.leaves i (markSettled false (st.leaves i)) := by
        simp [dispatch, Outcome.isOk]
      have hSl : (dispatch ds i (.err e) st).slots = st.slots := by
        simp [dispatch]
      have hRv : (dispatch ds i (.err e) st).resolved = st.resolved := by
        simp [dispatch]
      have hOut : (dispatch ds i (.err e) st).out = st.out ++ [.err e] := by
        simp [dispatch]
      refine ⟨?_, ?_, ?_, ?_, ?_, ?_, ?_, ?_, ?_, ?_⟩
      · simp only [hLv]
        exact fupd_forall _ _ _ (fun l : LeafSt => l.handleInvoked = 0)
          h.hand (by simpa using h.hand i)
      · simp only [hLv]
        exact fupd_forall _ _ _ (fun l : LeafSt => l.cancelled = false)
          h.canc (by simpa using hNC)
      · intro j hj
        have hne : j ≠ i := by omega
        simp only [hLv, hSl]
        rw [fupd_ne _ _ _ _ hne]
        exact h.hiS j hj
      · intro j hj
        simp only [hLv]
        by_cases hje : j = i
        · rw [hje, fupd_self]
          simpa using hStart
        · rw [fupd_ne _ _ _ _ hje]
          exact h.loS j hj
      · simp only [hLv]
        exact fupd_forall _ _ _
          (fun l : LeafSt => l.settledOk = true → l.settled = true)
          h.okset (fun _ => by simp)
      · intro j hj
        simp only [hLv, hSl]
        by_cases hje : j = i
        · subst hje
          rw [fupd_self]
          constructor
          · intro hs
            exfalso
            have hr := (h.char j hj).mp hs
            rw [hOkPre] at hr
            simp at hr
          · intro hr
            simp at hr
        · rw [fupd_ne _ _ _ _ hje]
          exact h.char j hj
      · simp only [hSl]
        exact h.slotid
      · simp only [hRv, hLv]
        rw [h.res]
        omega
      · simp only [hOut, hLv]
        rw [List.countP_append, List.countP_singleton, h.errs]
        simp [isErrO]
        omega
      · simp only [hOut, hRv]
        rw [List.countP_append, List.countP_singleton, h.oks]
        simp [isOkO]
    | ok t =>
      have hcok := countF_fupd ds.length st.leaves okP i hin
        (markSettled true (st.leaves i))
      rw [hokold, okP_markSettled] at hcok
      simp at hcok
      have hcerr := countF_fupd ds.length st.leaves errP i hin
        (markSettled true (st.leaves i))
      rw [herrold, errP_markSettled] at hcerr
      simp at hcerr
      have hLv : (dispatch ds i (.ok t) st).leaves
          = fupd st.leaves i (markSettled true (st.leaves i)) := by
        by_cases hfin : st.resolved + 1 = ds.length <;>
          simp [dispatch, resolveIdx, Outcome.isOk, hfin]
      have hSl : (dispatch ds i (.ok t) st).slots
          = fupd st.slots i .noopS := by
        by_cases hfin : st.resolved + 1 = ds.length <;>
          simp [dispatch, resolveIdx, Outcome.isOk, hfin]
      have hRv : (dispatch ds i (.ok t) st).resolved = st.resolved + 1 := by
        by_cases hfin : st.resolved + 1 = ds.length <;>
          simp [dispatch, resolveIdx, Outcome.isOk, hfin]
      have hOut : (dispatch ds i (.ok t) st).out
          = st.out ++ (if st.resolved + 1 = ds.length then
              [.ok ((List.range ds.length).map (fupd st.results i (some t)))]
            else []) := by
        by_cases hfin : st.resolved + 1 = ds.length <;>
          simp [dispatch, resolveIdx, Outcome.isOk, hfin]
      refine ⟨?_, ?_, ?_, ?_, ?_, ?_, ?_, ?_, ?_, ?_⟩
      · simp only [hLv]
        exact fupd_forall _ _ _ (fun l : LeafSt => l.handleInvoked = 0)
          h.hand (by simpa using h.hand i)
      · simp only [hLv]
        exact fupd_forall _ _ _ (fun l : LeafSt => l.cancelled = false)
          h.canc (by simpa using hNC)
      · intro j hj
        have hne : j ≠ i := by omega
        simp only [hLv, hSl]
        rw [fupd_ne _ _ _ _ hne, fupd_ne _ _ _ _ hne]
        exact h.hiS j hj
      · intro j hj
        simp only [hLv]
        by_cases hje : j = i
        · rw [hje, fupd_self]
          simpa using hStart
        · rw [fupd_ne _ _ _ _ hje]
          exact h.loS j hj
      · simp only [hLv]
        exact fupd_forall _ _ _
          (fun l : LeafSt => l.settledOk = true → l.settled = true)
          h.okset (fun _ => by simp)
      · intro j hj
        simp only [hLv, hSl]
        by_cases hje : j = i
        · rw [hje, fupd_self, fupd_self]
          exact ⟨fun _ => ⟨hje ▸ hA, by simp⟩, fun _ => rfl⟩
        · rw [fupd_ne _ _ _ _ hje, fupd_ne _ _ _ _ hje]
          exact h.char j hj
      · intro j
        simp only [hSl]
        by_cases hje : j = i
        · rw [hje, fupd_self]
          exact Or.inl rfl
        · rw [fupd_ne _ _ _ _ hje]
          exact h.slotid j
      · simp only [hRv, hLv]
        rw [h.res]
        omega
      · simp only [hOut, hLv]
        rw [List.countP_append]
        have hz : List.countP isErrO
            (if st.resolved + 1 = ds.length then
              ([.ok ((List.range ds.length).map (fupd st.results i (some t)))]
                : List (Outcome E (List (Option T))))
            else []) = 0 := by
          by_cases hfin : st.resolved + 1 = ds.length
          · simp [hfin, isErrO]
          · simp [hfin]
        rw [hz, h.errs]
        omega
      · simp only [hOut, hRv]
        rw [List.countP_append, h.oks, if_neg hres_ne]
        by_cases hfin : st.resolved + 1 = ds.length
        · rw [if_pos hfin, if_pos hfin]
          simp [isOkO]
        · rw [if_neg hfin, if_neg hfin]
          simp
  · rw [if_neg hg]
    exact h

theorem ginv_forkLeaf {E T : Type} (ds : List (LeafB E T)) (m : Nat)
    (st : St E T) (h : GInv ds m st) (hm : m < ds.length) :
    GInv ds (m + 1) (forkLeaf ds m st) := by
  have hdef : st.leaves m = {} := (h.hiS m le_rfl).1
  have hresle : st.resolved ≠ ds.length := by
    have h1 := countF_le m st.leaves okP
    rw [h.res]
    omega
  cases hb : ds.getD m .async with
  | async =>
    have hLv : (forkLeaf ds m st).leaves
        = fupd st.leaves m (markStarted (st.leaves m)) := by
      unfold forkLeaf
      rw [hb]
    have hSl : (forkLeaf ds m st).slots
        = fupd st.slots m (.handleOf m) := by
      unfold forkLeaf
      rw [hb]
    have hRv : (forkLeaf ds m st).resolved = st.resolved := by
      unfold forkLeaf
      rw [hb]
    have hOut : (forkLeaf ds m st).out = st.out := by
      unfold forkLeaf
      rw [hb]
    refine ⟨?_, ?_, ?_, ?_, ?_, ?_, ?_, ?_, ?_, ?_⟩
    · simp only [hLv]
      exact fupd_forall _ _ _ (fun l : LeafSt => l.handleInvoked = 0)
        h.hand (by simpa using h.hand m)
    · simp only [hLv]
      exact fupd_forall _ _ _ (fun l : LeafSt => l.cancelled = false)
        h.canc (by simpa using h.canc m)
    · intro j hj
      have hne : j ≠ m := by omega
      simp only [hLv, hSl]
      rw [fupd_ne _ _ _ _ hne, fupd_ne _ _ _ _ hne]
      exact h.hiS j (by omega)
    · intro j hj
      simp only [hLv]
      by_cases hje : j = m
      · rw [hje, fupd_self]
        simp
      · rw [fupd_ne _ _ _ _ hje]
        exact h.loS j (by omega)
    · simp only [hLv]
      exact fupd_forall _ _ _
        (fun l : LeafSt => l.settledOk = true → l.settled = true)
        h.okset (by simpa using h.okset m)
    · intro j hj
      simp only [hLv, hSl]
      by_cases hje : j = m
      · subst hje
        rw [fupd_self, fupd_self]
        constructor
        · intro hc
          exact absurd hc (by simp)
        · intro hr
          rw [hdef] at hr
          simp at hr
      · rw [fupd_ne _ _ _ _ hje, fupd_ne _ _ _ _ hje]
        exact h.char j (by omega)
    · intro j
      simp only [hSl]
      by_cases hje : j = m
      · rw [hje, fupd_self]
        exact Or.inr rfl
      · rw [fupd_ne _ _ _ _ hje]
        exact h.slotid j
    · simp only [hRv, hLv]
      rw [countF_succ_fupd, h.res]
      have hz : okP (markStarted (st.leaves m)) = false := by
        rw [hdef]
        simp [okP, markStarted]
      rw [hz]
      simp
    · simp only [hOut, hLv]
      rw [countF_succ_fupd, h.errs]
      have hz : errP (markStarted (st.leaves m)) = false := by
        rw [hdef]
        simp [errP, markStarted]
      rw [hz]
      simp
    · simp only [hOut, hRv]
      exact h.oks
  | sync o =>
    cases o with
    | err e =>
      have hLv : (forkLeaf ds m st).leaves
          = fupd st.leaves m
            (markSettled false (markStarted (st.leaves m))) := by
        unfold forkLeaf
        rw [hb]
        simp [dispatch, Outcome.isOk, fupd_fupd_self, fupd_self]
      have hSl : (forkLeaf ds m st).slots
          = fupd st.slots m (.handleOf m) := by
        unfold forkLeaf
        rw [hb]
        simp [dispatch]
      have hRv : (forkLeaf ds m st).resolved = st.resolved := by
        unfold forkLeaf
        rw [hb]
        simp [dispatch]
      have hOut : (forkLeaf ds m st).out = st.out ++ [.err e] := by
        unfold forkLeaf
        rw [hb]
        simp [dispatch]
      refine ⟨?_, ?_, ?_, ?_, ?_, ?_, ?_, ?_, ?_, ?_⟩
      · simp only [hLv]
        exact fupd_forall _ _ _ (fun l : LeafSt => l.handleInvoked = 0)
          h.hand (by simpa using h.hand m)
      · simp only [hLv]
        exact fupd_forall _ _ _ (fun l : LeafSt => l.cancelled = false)
          h.canc (by simpa using h.canc m)
      · intro j hj
        have hne : j ≠ m := by omega
        simp only [hLv, hSl]
        rw [fupd_ne _ _ _ _ hne, fupd_ne _ _ _ _ hne]
        exact h.hiS j (by omega)
      · intro j hj
        simp only [hLv]
        by_cases hje : j = m
        · rw [hje, fupd_self]
          simp
        · rw [fupd_ne _ _ _ _ hje]
          exact h.loS j (by omega)
      · simp only [hLv]
        exact fupd_forall _ _ _
          (fun l : LeafSt => l.settledOk = true → l.settled = true)
          h.okset (by simp)
      · intro j hj
        simp only [hLv, hSl]
        by_cases hje : j = m
        · subst hje
          rw [fupd_self, fupd_self]
          constructor
          · intro hc
            exact absurd hc (by simp)
          · intro hr
            rw [hb] at hr
            simp [LeafB.isAsync] at hr
        · rw [fupd_ne _ _ _ _ hje, fupd_ne _ _ _ _ hje]
          exact h.char j (by omega)
      · intro j
        simp only [hSl]
        by_cases hje : j = m
        · rw [hje, fupd_self]
          exact Or.inr rfl
        · rw [fupd_ne _ _ _ _ hje]
          exact h.slotid j
      · simp only [hRv, hLv]
        rw [countF_succ_fupd, h.res, okP_markSettled]
        simp
      · simp only [hOut, hLv]
        rw [List.countP_append, List.countP_singleton, countF_succ_fupd,
          h.errs, errP_markSettled]
        simp [isErrO]
      · simp only [hOut, hRv]
        rw [List.countP_append, List.countP_singleton, h.oks]
        simp [isOkO]
    | ok t =>
      have hLv : (forkLeaf ds m st).leaves
          = fupd st.leaves m
            (markSettled true (markStarted (st.leaves m))) := by
        unfold forkLeaf
        rw [hb]
        by_cases hfin : st.resolved + 1 = ds.length <;>
          simp [dispatch, resolveIdx, Outcome.isOk, hfin, fupd_fupd_self,
            fupd_self]
      have hSl : (forkLeaf ds m st).slots
          = fupd st.slots m (.handleOf m) := by
        unfold forkLeaf
        rw [hb]
        by_cases hfin : st.resolved + 1 = ds.length <;>
          simp [dispatch, resolveIdx, Outcome.isOk, hfin, fupd_fupd_self,
            fupd_self]
      have hRv : (forkLeaf ds m st).resolved = st.resolved + 1 := by
        unfold forkLeaf
        rw [hb]
        by_cases hfin : st.resolved + 1 = ds.length <;>
          simp [dispatch, resolveIdx, Outcome.isOk, hfin]
      have hOut : (forkLeaf ds m st).out
          = st.out ++ (if st.resolved + 1 = ds.length then
              [.ok ((List.range ds.length).map (fupd st.results m (some t)))]
            else []) := by
        unfold forkLeaf
        rw [hb]
        by_cases hfin : st.resolved + 1 = ds.length <;>
          simp [dispatch, resolveIdx, Outcome.isOk, hfin, fupd_fupd_self,
            fupd_self]
      refine ⟨?_, ?_, ?_, ?_, ?_, ?_, ?_, ?_, ?_, ?_⟩
      · simp only [hLv]
        exact fupd_forall _ _ _ (fun l : LeafSt => l.handleInvoked = 0)
          h.hand (by simpa using h.hand m)
      · simp only [hLv]
        exact fupd_forall _ _ _ (fun l : LeafSt => l.cancelled = false)
          h.canc (by simpa using h.canc m)
      · intro j hj
        have hne : j ≠ m := by omega
        simp only [hLv, hSl]
        rw [fupd_ne _ _ _ _ hne, fupd_ne _ _ _ _ hne]
        exact h.hiS j (by omega)
      · intro j hj
        simp only [hLv]
        by_cases hje : j = m
        · rw [hje, fupd_self]
          simp
        · rw [fupd_ne _ _ _ _ hje]
          exact h.loS j (by omega)
      · simp only [hLv]
        exact fupd_forall _ _ _
          (fun l : LeafSt => l.settledOk = true → l.settled = true)
          h.okset (by simp)
      · intro j hj
        simp only [hLv, hSl]
        by_cases hje : j = m
        · subst hje
          rw [fupd_self, fupd_self]
          constructor
          · intro hc
            exact absurd hc (by simp)
          · intro hr
            rw [hb] at hr
            simp [LeafB.isAsync] at hr
        · rw [fupd_ne _ _ _ _ hje, fupd_ne _ _ _ _ hje]
          exact h.char j (by omega)
      · intro j
        simp only [hSl]
        by_cases hje : j = m
        · rw [hje, fupd_self]
          exact Or.inr rfl
        · rw [fupd_ne _ _ _ _ hje]
          exact h.slotid j
      · simp only [hRv, hLv]
        rw [countF_succ_fupd, h.res, okP_markSettled]
        simp
      · simp only [hOut, hLv]
        rw [List.countP_append, countF_succ_fupd, h.errs, errP_markSettled]
        have hz : List.countP isErrO
            (if st.resolved + 1 = ds.length then
              ([.ok ((List.range ds.length).map (fupd st.results m (some t)))]
                : List (Outcome E (List (Option T))))
            else []) = 0 := by
          by_cases hfin : st.resolved + 1 = ds.length
          · simp [hfin, isErrO]
          · simp [hfin]
        rw [hz]
        simp
      · simp only [hOut, hRv]
        rw [List.countP_append, h.oks, if_neg hresle]
        by_cases hfin : st.resolved + 1 = ds.length
        · rw [if_pos hfin, if_pos hfin]
          simp [isOkO]
        · rw [if_neg hfin, if_neg hfin]
          simp

theorem ginv_forkAll {E T : Type} (ds : List (LeafB E T))
    (hn : ds.length ≠ 0) : GInv ds ds.length (forkAll ds) := by
  unfold forkAll
  rw [if_neg hn]
  have hinit : GInv ds 0 ({} : St E T) := by
    refine ⟨?_, ?_, ?_, ?_, ?_, ?_, ?_, ?_, ?_, ?_⟩
    · intro j
      rfl
    · intro j
      rfl
    · intro j _
      exact ⟨rfl, rfl⟩
    · intro j hj
      omega
    · intro j hv
      simp at hv
    · intro j hj
      omega
    · intro j
      exact Or.inl rfl
    · rfl
    · rfl
    · rw [if_neg (fun hc : (0 : Nat) = ds.length => hn hc.symm)]
      rfl
  have hfold : ∀ k, k ≤ ds.length →
      GInv ds k ((List.range k).foldl (fun st i => forkLeaf ds i st) {}) := by
    intro k
    induction k with
    | zero =>
      intro _
      exact hinit
    | succ k ih =>
      intro hk
      rw [List.range_succ, List.foldl_append, List.foldl_cons,
        List.foldl_nil]
      exact ginv_forkLeaf ds k _ (ih (by omega)) (by omega)
  exact hfold ds.length le_rfl

theorem ginv_run {E T : Type} (ds : List (LeafB E T))
    (s : List (Nat × Outcome E T)) : GInv ds ds.length (runAll ds s) := by
  have h0 : GInv ds ds.length (forkAll ds) := by
    by_cases hn : ds.length = 0
    · unfold forkAll
      rw [if_pos hn]
      refine ⟨?_, ?_, ?_, ?_, ?_, ?_, ?_, ?_, ?_, ?_⟩
      · intro j
        rfl
      · intro j
        rfl
      · intro j _
        exact ⟨rfl, rfl⟩
      · intro j hj
        omega
      · intro j hv
        simp at hv
      · intro j hj
        omega
      · intro j
        exact Or.inl rfl
      · rw [hn]
        rfl
      · rw [hn]
        rfl
      · rw [if_pos hn.symm]
        rfl
    · exact ginv_forkAll ds hn
  unfold runAll
  induction s using List.reverseRecOn with
  | nil => exact h0
  | append_singleton xs x ih =>
    rw [List.foldl_append, List.foldl_cons, List.foldl_nil]
    exact ginv_settle ds x.1 x.2 _ ih

theorem invokeSlot_slots {E T : Type} (st : St E T) (sl : Slot) :
    (invokeSlot st sl).slots = st.slots := by
  cases sl <;> rfl

theorem invokeSlot_out {E T : Type} (st : St E T) (sl : Slot) :
    (invokeSlot st sl).out = st.out := by
  cases sl <;> rfl

theorem cancelFold_leaves {E T : Type} (l : List Nat) (st : St E T)
    (hl : l.Nodup)
    (hslot : ∀ j, st.slots j = .noopS ∨ st.slots j = .handleOf j)
    (i : Nat) :
    ((l.foldl (fun st1 j => invokeSlot st1 (st1.slots j)) st).leaves i)
      = (if i ∈ l ∧ st.slots i = .handleOf i then
          invokeHandle (st.leaves i)
        else st.leaves i) := by
  induction l generalizing st with
  | nil => simp
  | cons j l2 ih =>
    rw [List.foldl_cons]
    have hnd2 : l2.Nodup := hl.of_cons
    have hjn : j ∉ l2 := (List.nodup_cons.mp hl).1
    rcases hslot j with hsj | hsj
    · have hst : invokeSlot st (st.slots j) = st := by
        rw [hsj]
        rfl
      rw [hst, ih st hnd2 hslot]
      by_cases hij : i = j
      · subst hij
        have hns : st.slots i ≠ Slot.handleOf i := by
          rw [hsj]
          intro hc
          exact Slot.noConfusion hc
        rw [if_neg (fun hc => hns hc.2), if_neg (fun hc => hns hc.2)]
      · by_cases hcond : i ∈ l2 ∧ st.slots i = Slot.handleOf i
        · rw [if_pos hcond,
            if_pos ⟨List.mem_cons_of_mem j hcond.1, hcond.2⟩]
        · rw [if_neg hcond, if_neg (fun hc => by
            rcases List.mem_cons.mp hc.1 with h1 | h1
            · exact hij h1
            · exact hcond ⟨h1, hc.2⟩)]
    · have hst : invokeSlot st (st.slots j)
          = { st with
              leaves := fupd st.leaves j (invokeHandle (st.leaves j)) } := by
        rw [hsj]
        rfl
      have hsl2 : ({ st with
          leaves := fupd st.leaves j (invokeHandle (st.leaves j)) }
            : St E T).slots = st.slots := rfl
      have hlv2 : ({ st with
          leaves := fupd st.leaves j (invokeHandle (st.leaves j)) }
            : St E T).leaves
          = fupd st.leaves j (invokeHandle (st.leaves j)) := rfl
      rw [hst, ih { st with
          leaves := fupd st.leaves j (invokeHandle (st.leaves j)) }
        hnd2 (fun k => hslot k)]
      simp only [hsl2, hlv2]
      by_cases hij : i = j
      · subst hij
        rw [if_neg (fun hc => hjn hc.1), fupd_self,
          if_pos ⟨List.mem_cons_self i l2, hsj⟩]
      · rw [fupd_ne _ _ _ _ hij]
        by_cases hcond : i ∈ l2 ∧ st.slots i = Slot.handleOf i
        · rw [if_pos hcond,
            if_pos ⟨List.mem_cons_of_mem j hcond.1, hcond.2⟩]
        · rw [if_neg hcond, if_neg (fun hc => by
            rcases List.mem_cons.mp hc.1 with h1 | h1
            · exact hij h1
            · exact hcond ⟨h1, hc.2⟩)]

theorem cancelAllJ_leaves {E T : Type} (ds : List (LeafB E T)) (st : St E T)
    (hslot : ∀ j, st.slots j = .noopS ∨ st.slots j = .handleOf j)
    (i : Nat) :
    ((cancelAllJ ds st).leaves i)
      = (if i < ds.length ∧ st.slots i = .handleOf i then
          invokeHandle (st.leaves i)
        else st.leaves i) := by
  unfold cancelAllJ
  rw [cancelFold_leaves (List.range ds.length) st (List.nodup_range _)
    hslot i]
  by_cases hmem : i < ds.length
  · by_cases hsl : st.slots i = Slot.handleOf i
    · rw [if_pos ⟨List.mem_range.mpr hmem, hsl⟩, if_pos ⟨hmem, hsl⟩]
    · rw [if_neg (fun hc => hsl hc.2), if_neg (fun hc => hsl hc.2)]
  · rw [if_neg (fun hc => hmem (List.mem_range.mp hc.1)),
      if_neg (fun hc => hmem hc.1)]

/-- Sub-task behaviors of the all-success scenario: `vs` lists the
results, `mask` selects the synchronously settling indices
(`Task.succeed`-like); the rest are pending leaves. -/
def mkLeaves {E T : Type} (vs : List T) (mask : List Bool) :
    List (LeafB E T) :=
  List.zipWith (fun v b => if b then LeafB.sync (.ok v) else .async) vs mask

/-- Asynchronous indices among the first `m`. -/
def remF (mask : List Bool) (m : Nat) : List Nat :=
  (List.range m).filter (fun i => !(mask.getD i true))

/-- Indices of all asynchronous sub-tasks. -/
def asyncIdx (mask : List Bool) : List Nat :=
  remF mask mask.length

theorem mkLeaves_length {E T : Type} (vs : List T) (mask : List Bool)
    (hm : mask.length = vs.length) :
    (mkLeaves (E := E) vs mask).length = vs.length := by
  simp [mkLeaves, List.length_zipWith, hm]

theorem mkLeaves_getD {E T : Type} (vs : List T) (d : T) (mask : List Bool)
    (hm : mask.length = vs.length) (i : Nat) (hi : i < vs.length) :
    (mkLeaves (E := E) vs mask).getD i .async
      = (if mask.getD i true then LeafB.sync (.ok (vs.getD i d))
        else .async) := by
  have hlen : i < (mkLeaves (E := E) vs mask).length := by
    rw [mkLeaves_length vs mask hm]
    exact hi
  rw [List.getD_eq_getElem _ _ hlen]
  simp only [mkLeaves, List.getElem_zipWith]
  rw [List.getD_eq_getElem vs d hi,
    List.getD_eq_getElem mask true (by omega)]

theorem remF_succ_true (mask : List Bool) (m : Nat)
    (hb : mask.getD m true = true) : remF mask (m + 1) = remF mask m := by
  unfold remF
  rw [List.range_succ, List.filter_append, List.filter_cons, hb]
  simp

theorem remF_succ_false (mask : List Bool) (m : Nat)
    (hb : mask.getD m true = false) :
    remF mask (m + 1) = remF mask m ++ [m] := by
  unfold remF
  rw [List.range_succ, List.filter_append, List.filter_cons, hb]
  simp

theorem remF_nodup (mask : List Bool) (m : Nat) : (remF mask m).Nodup :=
  (List.nodup_range m).filter _

theorem remF_mem (mask : List Bool) (m i : Nat) :
    i ∈ remF mask m ↔ (i < m ∧ mask.getD i true = false) := by
  unfold remF
  simp [List.mem_filter, List.mem_range]

/-- Invariant of the all-success run: the first `m` sub-tasks have been
forked, `rem` lists the asynchronous ones whose settlement is still
pending, every settled index has its value recorded at its own position,
and the joined task has resolved (with the results array) exactly if
everything has settled. -/
structure Mid {E T : Type} (vs : List T) (d : T) (mask : List Bool)
    (m : Nat) (rem : List Nat) (st : St E T) : Prop where
  rnodup : rem.Nodup
  rmem : ∀ i ∈ rem, i < m ∧ mask.getD i true = false
  res : st.resolved + rem.length = m
  pend : ∀ i ∈ rem, (st.leaves i).started = true ∧
    (st.leaves i).settled = false ∧ (st.leaves i).cancelled = false ∧
    st.results i = none
  done : ∀ i, i < m → i ∉ rem → st.results i = some (vs.getD i d)
  hiR : ∀ i, m ≤ i → st.results i = none ∧ st.leaves i = {}
  outE : st.out = (if m = vs.length ∧ rem = [] then
    [.ok ((List.range vs.length).map st.results)] else [])

theorem mid_forkLeaf {E T : Type} (vs : List T) (d : T) (mask : List Bool)
    (m : Nat) (st : St E T) (hm : mask.length = vs.length)
    (hmn : m < vs.length) (h : Mid vs d mask m (remF mask m) st) :
    Mid vs d mask (m + 1) (remF mask (m + 1))
      (forkLeaf (mkLeaves vs mask) m st) := by
  have hdl : (mkLeaves (E := E) vs mask).length = vs.length :=
    mkLeaves_length vs mask hm
  have hout0 : st.out = [] := by
    rw [h.outE, if_neg (fun hc => by omega)]
  cases hmask : mask.getD m true with
  | true =>
    have hb : (mkLeaves (E := E) vs mask).getD m .async
        = LeafB.sync (.ok (vs.getD m d)) := by
      rw [mkLeaves_getD vs d mask hm m hmn, if_pos hmask]
    have hrf : remF mask (m + 1) = remF mask m :=
      remF_succ_true mask m hmask
    have hLv : (forkLeaf (mkLeaves vs mask) m st).leaves
        = fupd st.leaves m (markSettled true (markStarted (st.leaves m))) := by
      unfold forkLeaf
      rw [hb]
      by_cases hfin : st.resolved + 1 = (mkLeaves (E := E) vs mask).length <;>
        simp [dispatch, resolveIdx, Outcome.isOk, hfin, fupd_fupd_self,
          fupd_self]
    have hRs : (forkLeaf (mkLeaves vs mask) m st).results
        = fupd st.results m (some (vs.getD m d)) := by
      unfold forkLeaf
      rw [hb]
      by_cases hfin : st.resolved + 1 = (mkLeaves (E := E) vs mask).length <;>
        simp [dispatch, resolveIdx, Outcome.isOk, hfin, fupd_fupd_self,
          fupd_self]
    have hRv : (forkLeaf (mkLeaves vs mask) m st).resolved
        = st.resolved + 1 := by
      unfold forkLeaf
      rw [hb]
      by_cases hfin : st.resolved + 1 = (mkLeaves (E := E) vs mask).length <;>
        simp [dispatch, resolveIdx, Outcome.isOk, hfin]
    have hOut : (forkLeaf (mkLeaves vs mask) m st).out
        = st.out ++ (if st.resolved + 1 = vs.length then
            [.ok ((List.range vs.length).map
              (fupd st.results m (some (vs.getD m d))))]
          else []) := by
      unfold forkLeaf
      rw [hb]
      by_cases hfin : st.resolved + 1 = vs.length <;>
        simp [dispatch, resolveIdx, Outcome.isOk, hdl, hfin, fupd_fupd_self,
          fupd_self]
    refine ⟨?_, ?_, ?_, ?_, ?_, ?_, ?_⟩
    · rw [hrf]
      exact h.rnodup
    · intro i hi
      rw [hrf] at hi
      have := h.rmem i hi
      exact ⟨by omega, this.2⟩
    · rw [hRv, hrf]
      have := h.res
      omega
    · intro i hi
      rw [hrf] at hi
      have hlt : i < m := (h.rmem i hi).1
      have hne : i ≠ m := by omega
      rw [hLv, hRs, fupd_ne _ _ _ _ hne, fupd_ne _ _ _ _ hne]
      exact h.pend i hi
    · intro i hi hni
      rw [hrf] at hni
      rw [hRs]
      by_cases hie : i = m
      · rw [hie, fupd_self]
      · rw [fupd_ne _ _ _ _ hie]
        exact h.done i (by omega) hni
    · intro i hi
      have hne : i ≠ m := by omega
      rw [hLv, hRs, fupd_ne _ _ _ _ hne, fupd_ne _ _ _ _ hne]
      exact h.hiR i (by omega)
    · rw [hOut, hRs, hout0, List.nil_append, hrf]
      have hlen0 : (remF mask m = []) ↔ ((remF mask m).length = 0) := by
        constructor
        · intro hc
          rw [hc]
          rfl
        · intro hc
          exact List.length_eq_zero.mp hc
      have hres := h.res
      by_cases hfin : st.resolved + 1 = vs.length
      · rw [if_pos hfin, if_pos ?_]
        constructor
        · omega
        · exact hlen0.mpr (by omega)
      · rw [if_neg hfin, if_neg (fun hc => by
          have := hlen0.mp hc.2
          omega)]
  | false =>
    have hb : (mkLeaves (E := E) vs mask).getD m .async = LeafB.async := by
      have hne : ¬(mask.getD m true = true) := by
        rw [hmask]
        simp
      rw [mkLeaves_getD vs d mask hm m hmn, if_neg hne]
    have hrf : remF mask (m + 1) = remF mask m ++ [m] :=
      remF_succ_false mask m hmask
    have hLv : (forkLeaf (mkLeaves vs mask) m st).leaves
        = fupd st.leaves m (markStarted (st.leaves m)) := by
      unfold forkLeaf
      rw [hb]
    have hRs : (forkLeaf (mkLeaves vs mask) m st).results = st.results := by
      unfold forkLeaf
      rw [hb]
    have hRv : (forkLeaf (mkLeaves vs mask) m st).resolved = st.resolved := by
      unfold forkLeaf
      rw [hb]
    have hOut : (forkLeaf (mkLeaves vs mask) m st).out = st.out := by
      unfold forkLeaf
      rw [hb]
    have hdefm := h.hiR m le_rfl
    refine ⟨?_, ?_, ?_, ?_, ?_, ?_, ?_⟩
    · rw [hrf]
      refine List.Nodup.append h.rnodup (List.nodup_singleton m) ?_
      intro a ha hb2
      have := (h.rmem a ha).1
      have : a = m := List.mem_singleton.mp hb2
      omega
    · intro i hi
      rw [hrf] at hi
      rcases List.mem_append.mp hi with h1 | h1
      · have := h.rmem i h1
        exact ⟨by omega, this.2⟩
      · have : i = m := List.mem_singleton.mp h1
        subst this
        exact ⟨by omega, hmask⟩
    · rw [hRv, hrf]
      have := h.res
      simp only [List.length_append, List.length_singleton]
      omega
    · intro i hi
      rw [hrf] at hi
      rw [hLv, hRs]
      rcases List.mem_append.mp hi with h1 | h1
      · have hlt : i < m := (h.rmem i h1).1
        have hne : i ≠ m := by omega
        rw [fupd_ne _ _ _ _ hne]
        exact h.pend i h1
      · have : i = m := List.mem_singleton.mp h1
        subst this
        rw [fupd_self, hdefm.2]
        exact ⟨rfl, rfl, rfl, hdefm.1⟩
    · intro i hi hni
      rw [hrf] at hni
      have hni2 : i ∉ remF mask m := fun hc =>
        hni (List.mem_append.mpr (Or.inl hc))
      have hne : i ≠ m := fun hc =>
        hni (List.mem_append.mpr (Or.inr (by rw [hc]; exact List.mem_singleton_self m)))
      rw [hRs]
      exact h.done i (by omega) hni2
    · intro i hi
      have hne : i ≠ m := by omega
      rw [hLv, hRs, fupd_ne _ _ _ _ hne]
      exact ⟨(h.hiR i (by omega)).1, (h.hiR i (by omega)).2⟩
    · rw [hOut, hout0, hrf, if_neg (fun hc => by
        have := hc.2
        simp at this)]

theorem mid_forkAll {E T : Type} (vs : List T) (d : T) (mask : List Bool)
    (hm : mask.length = vs.length) (hn : vs.length ≠ 0) :
    Mid vs d mask vs.length (remF mask vs.length)
      (forkAll (mkLeaves (E := E) vs mask)) := by
  have hdl : (mkLeaves (E := E) vs mask).length = vs.length :=
    mkLeaves_length vs mask hm
  unfold forkAll
  rw [if_neg (by omega)]
  rw [hdl]
  have hinit : Mid (E := E) vs d mask 0 (remF mask 0) {} := by
    refine ⟨?_, ?_, ?_, ?_, ?_, ?_, ?_⟩
    · exact List.nodup_nil
    · intro i hi
      simp [remF] at hi
    · rfl
    · intro i hi
      simp [remF] at hi
    · intro i hi hni
      omega
    · intro i _
      exact ⟨rfl, rfl⟩
    · rw [if_neg (fun hc => hn hc.1.symm)]
  have hfold : ∀ k, k ≤ vs.length →
      Mid vs d mask k (remF mask k)
        ((List.range k).foldl
          (fun st i => forkLeaf (mkLeaves vs mask) i st)
          ({} : St E T)) := by
    intro k
    induction k with
    | zero =>
      intro _
      exact hinit
    | succ k ih =>
      intro hk
      rw [List.range_succ, List.foldl_append, List.foldl_cons,
        List.foldl_nil]
      exact mid_forkLeaf vs d mask k _ hm (by omega) (ih (by omega))
  exact hfold vs.length le_rfl

theorem mid_settle {E T : Type} (vs : List T) (d : T) (mask : List Bool)
    (rem : List Nat) (st : St E T) (i : Nat)
    (hm : mask.length = vs.length)
    (h : Mid vs d mask vs.length rem st) (hi : i ∈ rem) :
    Mid vs d mask vs.length (rem.erase i)
      (settle (mkLeaves vs mask) i (.ok (vs.getD i d)) st) := by
  have hdl : (mkLeaves (E := E) vs mask).length = vs.length :=
    mkLeaves_length vs mask hm
  have hri := h.rmem i hi
  have hpi := h.pend i hi
  have hb : (mkLeaves (E := E) vs mask).getD i .async = LeafB.async := by
    have hne : ¬(mask.getD i true = true) := by
      rw [hri.2]
      simp
    rw [mkLeaves_getD vs d mask hm i hri.1, if_neg hne]
  have hg : (((mkLeaves (E := E) vs mask).getD i .async).isAsync
        && (st.leaves i).started && !(st.leaves i).settled
        && !(st.leaves i).cancelled) = true := by
    rw [hb, hpi.1, hpi.2.1, hpi.2.2.1]
    rfl
  have hout0 : st.out = [] := by
    rw [h.outE, if_neg (fun hc => by
      rw [hc.2] at hi
      simp at hi)]
  have hrlen : 0 < rem.length := List.length_pos.mpr (fun hc => by
    rw [hc] at hi
    simp at hi)
  have herlen : (rem.erase i).length = rem.length - 1 :=
    List.length_erase_of_mem hi
  have hstep : settle (mkLeaves vs mask) i (.ok (vs.getD i d)) st
      = dispatch (mkLeaves vs mask) i (.ok (vs.getD i d)) st := by
    unfold settle
    rw [if_pos hg]
  rw [hstep]
  have hLv : (dispatch (mkLeaves vs mask) i (.ok (vs.getD i d)) st).leaves
      = fupd st.leaves i (markSettled true (st.leaves i)) := by
    by_cases hfin : st.resolved + 1 = (mkLeaves (E := E) vs mask).length <;>
      simp [dispatch, resolveIdx, Outcome.isOk, hfin]
  have hRs : (dispatch (mkLeaves vs mask) i (.ok (vs.getD i d)) st).results
      = fupd st.results i (some (vs.getD i d)) := by
    by_cases hfin : st.resolved + 1 = (mkLeaves (E := E) vs mask).length <;>
      simp [dispatch, resolveIdx, Outcome.isOk, hfin]
  have hRv : (dispatch (mkLeaves vs mask) i (.ok (vs.getD i d)) st).resolved
      = st.resolved + 1 := by
    by_cases hfin : st.resolved + 1 = (mkLeaves (E := E) vs mask).length <;>
      simp [dispatch, resolveIdx, Outcome.isOk, hfin]
  have hOut : (dispatch (mkLeaves vs mask) i (.ok (vs.getD i d)) st).out
      = st.out ++ (if st.resolved + 1 = vs.length then
          [.ok ((List.range vs.length).map
            (fupd st.results i (some (vs.getD i d))))]
        else []) := by
    rw [← hdl]
    by_cases hfin : st.resolved + 1 = (mkLeaves (E := E) vs mask).length <;>
      simp [dispatch, resolveIdx, Outcome.isOk, hfin]
  refine ⟨?_, ?_, ?_, ?_, ?_, ?_, ?_⟩
  · exact h.rnodup.erase i
  · intro j hj
    exact h.rmem j (List.mem_of_mem_erase hj)
  · rw [hRv, herlen]
    have := h.res
    omega
  · intro j hj
    have hjne : j ≠ i := (h.rnodup.mem_erase_iff.mp hj).1
    have hjrem : j ∈ rem := List.mem_of_mem_erase hj
    rw [hLv, hRs, fupd_ne _ _ _ _ hjne, fupd_ne _ _ _ _ hjne]
    exact h.pend j hjrem
  · intro j hjlt hjn
    rw [hRs]
    by_cases hje : j = i
    · rw [hje, fupd_self]
    · rw [fupd_ne _ _ _ _ hje]
      have hjn2 : j ∉ rem := fun hc =>
        hjn (h.rnodup.mem_erase_iff.mpr ⟨hje, hc⟩)
      exact h.done j hjlt hjn2
  · intro j hjge
    have hjne : j ≠ i := by
      have := hri.1
      omega
    rw [hLv, hRs, fupd_ne _ _ _ _ hjne, fupd_ne _ _ _ _ hjne]
    exact h.hiR j hjge
  · rw [hOut, hRs, hout0, List.nil_append]
    have hres := h.res
    by_cases hfin : st.resolved + 1 = vs.length
    · rw [if_pos hfin, if_pos ⟨rfl, List.length_eq_zero.mp (by omega)⟩]
    · rw [if_neg hfin, if_neg (fun hc => by
        have : (rem.erase i).length = 0 := by
          rw [hc.2]
          rfl
        omega)]

theorem range_map_of_done {T : Type} (vs : List T) (d : T)
    (r : Nat → Option T) (hdone : ∀ i, i < vs.length → r i = some (vs.getD i d)) :
    (List.range vs.length).map r = vs.map some := by
  apply List.ext_getElem
  · simp
  · intro i h1 h2
    simp only [List.getElem_map, List.getElem_range]
    rw [hdone i (by simpa using h1),
      List.getD_eq_getElem vs d (by simpa using h1)]

theorem mid_settle_fold {E T : Type} (vs : List T) (d : T)
    (mask : List Bool) (hm : mask.length = vs.length) :
    ∀ (is rem : List Nat) (st : St E T), is.Perm rem →
      Mid vs d mask vs.length rem st →
      Mid vs d mask vs.length []
        (is.foldl
          (fun st1 i => settle (mkLeaves vs mask) i (.ok (vs.getD i d)) st1)
          st) := by
  intro is
  induction is with
  | nil =>
    intro rem st hp h
    rw [List.foldl_nil]
    have : rem = [] := hp.symm.eq_nil
    rw [this] at h
    exact h
  | cons i is2 ih =>
    intro rem st hp h
    have hi : i ∈ rem := hp.subset (List.mem_cons_self i is2)
    have hp2 : is2.Perm (rem.erase i) :=
      (List.cons_perm_iff_perm_erase.mp hp).2
    rw [List.foldl_cons]
    exact ih _ _ hp2 (mid_settle vs d mask rem st i hm h hi)

theorem foldl_settle_map {E T : Type} (ds : List (LeafB E T))
    (g : Nat → Outcome E T) :
    ∀ (is : List Nat) (st : St E T),
      ((is.map (fun i => (i, g i))).foldl
        (fun st1 e => settle ds e.1 e.2 st1) st)
        = is.foldl (fun st1 i => settle ds i (g i) st1) st := by
  intro is
  induction is with
  | nil =>
    intro st
    rfl
  | cons a l ih =>
    intro st
    rw [List.map_cons, List.foldl_cons, List.foldl_cons, ih]

end AllM

/-- Claim C5: for every result list `vs`, every split of the sub-tasks
into synchronously succeeding and pending ones, and every settlement
order (any permutation of the pending indices), `Task.all` over sub-tasks
that all succeed resolves with the results in the original index order,
regardless of the order in which the sub-tasks settled. -/
theorem all_resolves_in_index_order (E T : Type) (vs : List T) (d : T)
    (mask : List Bool) (is : List Nat)
    (hm : mask.length = vs.length)
    (hp : is.Perm (AllM.asyncIdx mask)) :
    (AllM.runAll (AllM.mkLeaves (E := E) vs mask)
        (is.map (fun i => (i, Outcome.ok (vs.getD i d))))).out
      = [.ok (vs.map some)] := by
  by_cases hn : vs.length = 0
  · have hvs : vs = [] := List.length_eq_zero.mp hn
    have hmask : mask = [] := List.length_eq_zero.mp (by rw [hm, hn])
    subst hvs
    subst hmask
    have his : is = [] := hp.eq_nil
    subst his
    rfl
  · have hidx : AllM.asyncIdx mask = AllM.remF mask vs.length := by
      unfold AllM.asyncIdx
      rw [hm]
    rw [hidx] at hp
    have hfork := AllM.mid_forkAll (E := E) vs d mask hm hn
    have hfold := AllM.mid_settle_fold (E := E) vs d mask hm is
      (AllM.remF mask vs.length) (AllM.forkAll (AllM.mkLeaves vs mask)) hp
      hfork
    have hout := hfold.outE
    rw [if_pos ⟨rfl, rfl⟩] at hout
    rw [AllM.range_map_of_done vs d _
      (fun i hi => hfold.done i hi (by simp))] at hout
    unfold AllM.runAll
    rw [AllM.foldl_settle_map (AllM.mkLeaves vs mask)
      (fun i => Outcome.ok (vs.getD i d)) is
      (AllM.forkAll (AllM.mkLeaves vs mask))]
    exact hout

/-- Witness for C5 at a concrete input: three sub-tasks, the first
synchronous, the other two pending and settling out of index order. -/
theorem all_resolves_in_index_order_witness :
    (([true, false, false] : List Bool).length = ([1, 2, 3] : List Nat).length) ∧
      (([2, 1] : List Nat).Perm (AllM.asyncIdx [true, false, false])) ∧
      (AllM.runAll (AllM.mkLeaves (E := String) [1, 2, 3]
          [true, false, false])
        (([2, 1] : List Nat).map (fun i =>
          (i, Outcome.ok (([1, 2, 3] : List Nat).getD i 0))))).out
        = [.ok (([1, 2, 3] : List Nat).map some)] :=
  ⟨by decide, by decide,
    all_resolves_in_index_order String Nat [1, 2, 3] 0 [true, false, false]
      [2, 1] (by decide) (by decide)⟩

/-- Claim C3 counterexample: a fork of
`Task.all([Task.fail("a"), Task.fail("b")])` invokes the joined reject
callback twice — once per failing sub-task — so a single fork does not
settle at most once and the second failure is not ignored. -/
theorem all_reject_twice_cex :
    (AllM.runAll
        ([.sync (.err "a"), .sync (.err "b")] : List (LeafB String Nat))
        []).out
      = [.err "a", .err "b"] := rfl

/-- Claim C3 (amended): for every list of sub-task behaviors and every
settlement schedule, a single fork of `Task.all` invokes the joined reject
callback exactly once per sub-task whose settlement was a failure — so
with several failures the joined fork settles more than once and later
failures are not ignored — while the joined resolve callback is invoked
at most once, and is invoked exactly when every sub-task's success has
been recorded. -/
theorem all_settlement_counts (E T : Type) (ds : List (LeafB E T))
    (s : List (Nat × Outcome E T)) :
    List.countP isErrO (AllM.runAll ds s).out
        = AllM.countF ds.length (AllM.runAll ds s).leaves AllM.errP ∧
      List.countP isOkO (AllM.runAll ds s).out ≤ 1 ∧
      (List.countP isOkO (AllM.runAll ds s).out = 1 ↔
        ∀ i, i < ds.length →
          AllM.okP ((AllM.runAll ds s).leaves i) = true) := by
  have h := AllM.ginv_run ds s
  refine ⟨h.errs, ?_, ?_⟩
  · rw [h.oks]
    split <;> omega
  · rw [h.oks]
    constructor
    · intro hone i hi
      have hres : (AllM.runAll ds s).resolved = ds.length := by
        by_contra hne
        rw [if_neg hne] at hone
        omega
      have hcnt : AllM.countF ds.length (AllM.runAll ds s).leaves AllM.okP
          = ds.length := by
        rw [← h.res]
        exact hres
      exact (AllM.countF_eq_iff ds.length (AllM.runAll ds s).leaves
        AllM.okP).mp hcnt i hi
    · intro hall
      have hcnt : AllM.countF ds.length (AllM.runAll ds s).leaves AllM.okP
          = ds.length :=
        (AllM.countF_eq_iff ds.length (AllM.runAll ds s).leaves
          AllM.okP).mpr hall
      rw [if_pos (by rw [h.res]; exact hcnt)]

/-- Claim C2 counterexample: forking
`Task.all([Task.fail("E"), t])` with `t` still pending rejects with `"E"`
but the combinator invokes no cancel handle at that point — the
outstanding sub-task at index 1 is started and unsettled, and its cancel
handle has not been invoked. -/
theorem all_no_cancel_on_failure_cex :
    (AllM.runAll ([.sync (.err "E"), .async] : List (LeafB String Nat))
        []).out = [.err "E"] ∧
      ((AllM.runAll ([.sync (.err "E"), .async] : List (LeafB String Nat))
        []).leaves 1).started = true ∧
      ((AllM.runAll ([.sync (.err "E"), .async] : List (LeafB String Nat))
        []).leaves 1).settled = false ∧
      ((AllM.runAll ([.sync (.err "E"), .async] : List (LeafB String Nat))
        []).leaves 1).handleInvoked = 0 :=
  ⟨rfl, rfl, rfl, rfl⟩

/-- Claim C2 (amended): a failing sub-task makes the joined task reject,
but the combinator invokes no sibling cancel handle at that moment —
after the fork and any settlement schedule every sub-task's cancel handle
has been invoked zero times.  Outstanding sub-tasks are cancelled only
when the joined task's returned cancel handle is invoked: that call
invokes the recorded slot of every index, which is the combinator's no-op
exactly for an asynchronous sub-task whose success was recorded, and the
sub-task's fork-returned handle for every other index (pending or failed
asynchronous sub-tasks — a real cancellation — and synchronously settled
sub-tasks, whose returned handle is `noop`). -/
theorem all_cancel_only_via_handle (E T : Type) (ds : List (LeafB E T))
    (s : List (Nat × Outcome E T)) (i : Nat) (hi : i < ds.length) :
    ((AllM.runAll ds s).leaves i).handleInvoked = 0 ∧
      ((AllM.runAll ds s).slots i = AllM.Slot.noopS ↔
        ((ds.getD i .async).isAsync = true ∧
          ((AllM.runAll ds s).leaves i).settledOk = true)) ∧
      ((AllM.cancelAllJ ds (AllM.runAll ds s)).leaves i).handleInvoked
        = (if (AllM.runAll ds s).slots i = AllM.Slot.noopS then 0
          else 1) := by
  have h := AllM.ginv_run ds s
  refine ⟨h.hand i, h.char i hi, ?_⟩
  rw [AllM.cancelAllJ_leaves ds _ h.slotid i]
  rcases h.slotid i with hs | hs
  · rw [if_neg (fun hc => by
      rw [hs] at hc
      exact AllM.Slot.noConfusion hc.2)]
    rw [if_pos hs]
    exact h.hand i
  · rw [if_pos ⟨hi, hs⟩, hs]
    rw [if_neg (fun hc => AllM.Slot.noConfusion hc)]
    simp [invokeHandle, h.hand i]

/-- Witness for the amended C2 theorem at a concrete input: two sub-tasks,
the first failing synchronously, the second pending. -/
theorem all_cancel_only_via_handle_witness :
    (1 < ([.sync (.err "E"), .async] : List (LeafB String Nat)).length) ∧
      (((AllM.runAll
          ([.sync (.err "E"), .async] : List (LeafB String Nat)) []).leaves
            1).handleInvoked = 0 ∧
        ((AllM.runAll
            ([.sync (.err "E"), .async] : List (LeafB String Nat)) []).slots
              1 = AllM.Slot.noopS ↔
          ((([.sync (.err "E"), .async] : List (LeafB String Nat)).getD 1
              .async).isAsync = true ∧
            ((AllM.runAll
              ([.sync (.err "E"), .async] : List (LeafB String Nat))
                []).leaves 1).settledOk = true)) ∧
        ((AllM.cancelAllJ ([.sync (.err "E"), .async] : List (LeafB String Nat))
            (AllM.runAll
              ([.sync (.err "E"), .async] : List (LeafB String Nat))
              [])).leaves 1).handleInvoked
          = (if (AllM.runAll
              ([.sync (.err "E"), .async] : List (LeafB String Nat))
                []).slots 1 = AllM.Slot.noopS then 0
            else 1)) :=
  ⟨by decide,
    all_cancel_only_via_handle String Nat
      ([.sync (.err "E"), .async] : List (LeafB String Nat)) [] 1
      (by decide)⟩

namespace RaceM

/-!
Model of `Task.race` (src/src/Task.ts lines 236-319):

```
public static race<E, T>(tasks: ReadonlyArray<Task<E, T>>): Task<E, T> {
  type Status = 'waiting' | 'resolved' | 'rejected';
  return fromEmpty(tasks).cata({
    Nothing: () => new Task<E, T>((_reject, _resolve) => noop),
    Just: () => new Task<E, T>((reject, resolve) => {
      let status: Status = 'waiting';
      const cancels: Array<Cancel> = [];
      const cancelAll = () => { let c; while ((c = cancels.shift())) c(); };
      const cancelAllIfNotStillWaiting = () =>
        status === 'waiting' ? undefined : cancelAll();
      const resolveAndCancelAll = (t) => {
        if (status === 'waiting') { status = 'resolved'; resolve(t); cancelAll(); } };
      const rejectAndCancelAll = (e) => {
        if (status === 'waiting') { status = 'rejected'; reject(e); cancelAll(); } };
      const forkTaskIfStillWaiting = (task) => {
        if (status === 'waiting') {
          const cancel = task.fork(rejectAndCancelAll, resolveAndCancelAll);
          cancels.push(cancel); } };
      tasks.forEach((task) => forkTaskIfStillWaiting(task));
      cancelAllIfNotStillWaiting();
      return () => cancelAll();
    }),
  });
}
```

The sub-tasks are abstract leaves; the `cancels` array holds the handles
returned by the forks, identified by leaf index, FIFO.
-/

/-- The internal status model `waiting → resolved | rejected`. -/
inductive Status where
  | waiting : Status
  | resolvedS : Status
  | rejectedS : Status
deriving DecidableEq, Repr

/-- State of one fork of `Task.race tasks`. -/
structure St (E T : Type) where
  status : Status := .waiting
  /-- the `cancels` array: fork-returned handles by leaf index, in push order -/
  cancels : List Nat := []
  leaves : Nat → LeafSt := fun _ => {}
  out : List (Outcome E T) := []

/-- Invoking the handle that leaf `i`'s fork returned. -/
def invokeLeafHandle {E T : Type} (st : St E T) (i : Nat) : St E T :=
  { st with leaves := fupd st.leaves i (invokeHandle (st.leaves i)) }

/-- `cancelAll`: shift every handle out of the queue and invoke it. -/
def cancelAll {E T : Type} (st : St E T) : St E T :=
  st.cancels.foldl invokeLeafHandle { st with cancels := [] }

/-- `resolveAndCancelAll(t)`: when still waiting, become resolved, invoke
the outer resolve, then cancel every queued handle; otherwise ignore. -/
def resolveAndCancelAll {E T : Type} (t : T) (st : St E T) : St E T :=
  match st.status with
  | .waiting =>
    cancelAll { st with status := .resolvedS, out := st.out ++ [.ok t] }
  | .resolvedS => st
  | .rejectedS => st

/-- `rejectAndCancelAll(e)`: the failure counterpart. -/
def rejectAndCancelAll {E T : Type} (e : E) (st : St E T) : St E T :=
  match st.status with
  | .waiting =>
    cancelAll { st with status := .rejectedS, out := st.out ++ [.err e] }
  | .resolvedS => st
  | .rejectedS => st

/-- `forkTaskIfStillWaiting(task)`: fork the task and push the returned
handle only while the status is `waiting`; a synchronous settlement runs
the settle-and-cancel callbacks during the fork, before the push. -/
def forkTaskIfStillWaiting {E T : Type} (ds : List (LeafB E T)) (i : Nat)
    (st : St E T) : St E T :=
  match st.status with
  | .waiting =>
    let st1 : St E T :=
      { st with leaves := fupd st.leaves i (markStarted (st.leaves i)) }
    let st2 : St E T :=
      match ds.getD i .async with
      | .sync o =>
        let st15 : St E T :=
          { st1 with
            leaves := fupd st1.leaves i (markSettled o.isOk (st1.leaves i)) }
        match o with
        | .err e => rejectAndCancelAll e st15
        | .ok t => resolveAndCancelAll t st15
      | .async => st1
    { st2 with cancels := st2.cancels ++ [i] }
  | .resolvedS => st
  | .rejectedS => st

/-- `cancelAllIfNotStillWaiting()`, run after the start loop. -/
def cancelAllIfNotStillWaiting {E T : Type} (st : St E T) : St E T :=
  match st.status with
  | .waiting => st
  | .resolvedS => cancelAll st
  | .rejectedS => cancelAll st

/-- The synchronous part of forking `Task.race tasks`: the empty case is
the `Nothing` branch whose computation does nothing and returns `noop`;
otherwise every task goes through `forkTaskIfStillWaiting` in order,
followed by `cancelAllIfNotStillWaiting`. -/
def forkRace {E T : Type} (ds : List (LeafB E T)) : St E T :=
  if ds.isEmpty then {}
  else
    cancelAllIfNotStillWaiting
      ((List.range ds.length).foldl
        (fun st i => forkTaskIfStillWaiting ds i st) {})

/-- External events: asynchronous settlement of a leaf, or an invocation
of the cancel handle that the race fork returned. -/
inductive Ev (E T : Type) where
  | settle : Nat → Outcome E T → Ev E T
  | cancelR : Ev E T

/-- Processing one external event. -/
def step {E T : Type} (ds : List (LeafB E T)) (st : St E T) :
    Ev E T → St E T
  | .settle i o =>
    if (ds.getD i .async).isAsync && (st.leaves i).started
        && !(st.leaves i).settled && !(st.leaves i).cancelled then
      let st1 : St E T :=
        { st with leaves := fupd st.leaves i (markSettled o.isOk (st.leaves i)) }
      match o with
      | .err e => rejectAndCancelAll e st1
      | .ok t => resolveAndCancelAll t st1
    else st
  | .cancelR =>
    if ds.isEmpty then st
    else cancelAll st

/-- A run: the fork followed by a schedule of events. -/
def runRace {E T : Type} (ds : List (LeafB E T)) (s : List (Ev E T)) :
    St E T :=
  s.foldl (step ds) (forkRace ds)

theorem step_empty {E T : Type} (e : Ev E T) :
    step ([] : List (LeafB E T)) ({} : St E T) e = ({} : St E T) := by
  cases e with
  | settle i o => rfl
  | cancelR => rfl

end RaceM

/-- Claim C7: `Task.race([])` never settles and its cancel handle is
callable without effect: for every schedule — including any number of
invocations of the returned cancel handle — no callback is ever invoked
and the state remains exactly the fork's initial state. -/
theorem race_empty_never_settles (E T : Type) (s : List (RaceM.Ev E T)) :
    RaceM.runRace ([] : List (LeafB E T)) s
        = RaceM.forkRace ([] : List (LeafB E T)) ∧
      (RaceM.runRace ([] : List (LeafB E T)) s).out = [] := by
  have hrun : RaceM.runRace ([] : List (LeafB E T)) s = ({} : RaceM.St E T) := by
    unfold RaceM.runRace
    have hfork : RaceM.forkRace ([] : List (LeafB E T)) = {} := rfl
    rw [hfork]
    induction s with
    | nil => rfl
    | cons e s2 ih =>
      rw [List.foldl_cons, RaceM.step_empty e]
      exact ih
  refine ⟨hrun, by rw [hrun]⟩

/-- Claim C4 evaluation at the failing input: a fork of
`Task.race([Task.succeed(1), t])` with `t` not yet settled resolves with
`1` and never starts `t` — `forkTaskIfStillWaiting` skips the fork once
the status is terminal, although the source's own documentation says all
tasks are forked even if one settles before the others. -/
theorem race_skips_fork_after_sync_settle :
    (RaceM.forkRace
        ([.sync (.ok 1), .async] : List (LeafB String Nat))).out
      = [.ok 1] ∧
    ((RaceM.forkRace
        ([.sync (.ok 1), .async] : List (LeafB String Nat))).leaves
          1).started = false :=
  ⟨rfl, rfl⟩

namespace LoopM

/-!
Model of `Task.loop` (src/src/Task.ts lines 332-366):

```
public static loop<E, T>(interval: number, task: Task<E, T>): Task<E, T> {
  return new Task<E, T>((_, resolve) => {
    let timeout: ReturnType<typeof setTimeout> | undefined;
    let internalCancel: Cancel | undefined;
    let isCancelled = false;
    const loop = () => {
      if (isCancelled) { return; }
      internalCancel = task.fork(
        (err) => {
          if (isCancelled) { return; }
          timeout = setTimeout(loop, interval);
        },
        (result) => {
          if (isCancelled) { return; }
          resolve(result);
        }
      );
    };
    loop();
    return () => {
      isCancelled = true;
      clearTimeout(timeout);
      internalCancel && internalCancel();
    };
  });
}
```

Each attempt of the wrapped task is an abstract leaf; attempt `k`'s
behavior is `att k`.  The timer is a pending flag (`setTimeout` sets it,
`clearTimeout` clears it, a fire event consumes it).  A late settlement
event for an in-flight attempt is allowed even if the attempt's cancel
handle was invoked — a leaf may ignore cancellation — so the guards in
the source callbacks are what protects the loop.
-/

/-- Runtime state of one started attempt of the wrapped task. -/
structure AttSt where
  settled : Bool := false
  cancelled : Bool := false
  handleInvoked : Nat := 0
deriving DecidableEq, Repr

instance : Inhabited AttSt := ⟨{}⟩

/-- State of one fork of `Task.loop interval task`. -/
structure St (E T : Type) where
  /-- a `setTimeout(loop, interval)` timer is pending -/
  timeoutPending : Bool := false
  /-- `internalCancel`: the handle of the most recently forked attempt -/
  internalCancel : Option Nat := none
  isCancelled : Bool := false
  /-- one entry per started attempt, in order -/
  attempts : List AttSt := []
  out : List (Outcome E T) := []

/-- Mark attempt `k` settled. -/
def setSettled (l : List AttSt) (k : Nat) : List AttSt :=
  l.set k { l.getD k default with settled := true }

/-- Invoking the cancel handle an attempt's fork returned. -/
def invokeAttHandle (a : AttSt) : AttSt :=
  { a with handleInvoked := a.handleInvoked + 1, cancelled := true }

/-- The `loop` closure: bail out if cancelled, otherwise fork the next
attempt (whose synchronous settlement runs the guarded callbacks — a
failure arms the timer, a success resolves the loop) and assign
`internalCancel` to the handle the fork returned. -/
def loopIter {E T : Type} (att : Nat → LeafB E T) (st : St E T) : St E T :=
  if st.isCancelled then st
  else
    let k := st.attempts.length
    let st1 : St E T := { st with attempts := st.attempts ++ [{}] }
    let st2 : St E T :=
      match att k with
      | .sync o =>
        let st15 : St E T := { st1 with attempts := setSettled st1.attempts k }
        match o with
        | .err _ =>
          if st15.isCancelled then st15
          else { st15 with timeoutPending := true }
        | .ok t =>
          if st15.isCancelled then st15
          else { st15 with out := st15.out ++ [.ok t] }
      | .async => st1
    { st2 with internalCancel := some k }

/-- The synchronous part of forking the loop: `loop()` runs once. -/
def forkLoop {E T : Type} (att : Nat → LeafB E T) : St E T :=
  loopIter att {}

/-- External events: late settlement of a started attempt, the pending
timer firing, or an invocation of the loop's returned cancel handle. -/
inductive Ev (E T : Type) where
  | settleAtt : Nat → Outcome E T → Ev E T
  | timerFire : Ev E T
  | cancelL : Ev E T

/-- Processing one external event. -/
def step {E T : Type} (att : Nat → LeafB E T) (st : St E T) :
    Ev E T → St E T
  | .settleAtt k o =>
    if (att k).isAsync = true ∧ k < st.attempts.length ∧
        (st.attempts.getD k default).settled = false then
      let st1 : St E T := { st with attempts := setSettled st.attempts k }
      match o with
      | .err _ =>
        if st1.isCancelled then st1
        else { st1 with timeoutPending := true }
      | .ok t =>
        if st1.isCancelled then st1
        else { st1 with out := st1.out ++ [.ok t] }
    else st
  | .timerFire =>
    if st.timeoutPending then
      loopIter att { st with timeoutPending := false }
    else st
  | .cancelL =>
    let st1 : St E T := { st with isCancelled := true, timeoutPending := false }
    match st1.internalCancel with
    | some k =>
      { st1 with
        attempts :=
          st1.attempts.set k (invokeAttHandle (st1.attempts.getD k default)) }
    | none => st1

/-- A run: the fork followed by a schedule of events. -/
def runLoop {E T : Type} (att : Nat → LeafB E T) (s : List (Ev E T)) :
    St E T :=
  s.foldl (step att) (forkLoop att)

theorem setSettled_length (l : List AttSt) (k : Nat) :
    (setSettled l k).length = l.length := by
  simp [setSettled]

theorem step_cancelled_frozen {E T : Type} (att : Nat → LeafB E T)
    (st : St E T) (e : Ev E T) (hc : st.isCancelled = true) :
    (step att st e).attempts.length = st.attempts.length ∧
      (step att st e).out = st.out ∧
      (step att st e).isCancelled = true := by
  cases e with
  | settleAtt k o =>
    cases o with
    | err e2 =>
      simp only [step]
      by_cases hg : (att k).isAsync = true ∧ k < st.attempts.length ∧
          (st.attempts.getD k default).settled = false
      · rw [if_pos hg, if_pos hc]
        exact ⟨setSettled_length st.attempts k, rfl, hc⟩
      · rw [if_neg hg]
        exact ⟨rfl, rfl, hc⟩
    | ok t =>
      simp only [step]
      by_cases hg : (att k).isAsync = true ∧ k < st.attempts.length ∧
          (st.attempts.getD k default).settled = false
      · rw [if_pos hg, if_pos hc]
        exact ⟨setSettled_length st.attempts k, rfl, hc⟩
      · rw [if_neg hg]
        exact ⟨rfl, rfl, hc⟩
  | timerFire =>
    simp only [step]
    by_cases hp : st.timeoutPending = true
    · rw [if_pos hp]
      simp only [loopIter]
      rw [if_pos hc]
      exact ⟨rfl, rfl, hc⟩
    · rw [if_neg hp]
      exact ⟨rfl, rfl, hc⟩
  | cancelL =>
    cases hic : st.internalCancel with
    | some k => simp [step, hic]
    | none => simp [step, hic]

theorem step_cancelL_cancelled {E T : Type} (att : Nat → LeafB E T)
    (st : St E T) : (step att st .cancelL).isCancelled = true := by
  cases hic : st.internalCancel with
  | some k => simp only [step, hic]
  | none => simp only [step, hic]

theorem loopIter_out_ok {E T : Type} (att : Nat → LeafB E T) (st : St E T)
    (h : st.out.all Outcome.isOk = true) :
    (loopIter att st).out.all Outcome.isOk = true := by
  unfold loopIter
  by_cases hc : st.isCancelled = true
  · rw [if_pos hc]
    exact h
  · rw [if_neg hc]
    cases hb : att st.attempts.length with
    | sync o =>
      cases o with
      | err e2 => simp [hb, hc, h]
      | ok t => simp [hb, hc, h, Outcome.isOk]
    | async => simp [hb, h]

theorem step_out_ok {E T : Type} (att : Nat → LeafB E T) (st : St E T)
    (e : Ev E T) (h : st.out.all Outcome.isOk = true) :
    (step att st e).out.all Outcome.isOk = true := by
  cases e with
  | settleAtt k o =>
    cases o with
    | err e2 =>
      simp only [step]
      by_cases hg : (att k).isAsync = true ∧ k < st.attempts.length ∧
          (st.attempts.getD k default).settled = false
      · rw [if_pos hg]
        by_cases hc : st.isCancelled = true
        · rw [if_pos hc]
          exact h
        · rw [if_neg hc]
          exact h
      · rw [if_neg hg]
        exact h
    | ok t =>
      simp only [step]
      by_cases hg : (att k).isAsync = true ∧ k < st.attempts.length ∧
          (st.attempts.getD k default).settled = false
      · rw [if_pos hg]
        by_cases hc : st.isCancelled = true
        · rw [if_pos hc]
          exact h
        · rw [if_neg hc]
          simp [h, Outcome.isOk]
      · rw [if_neg hg]
        exact h
  | timerFire =>
    simp only [step]
    by_cases hp : st.timeoutPending = true
    · rw [if_pos hp]
      exact loopIter_out_ok att _ h
    · rw [if_neg hp]
      exact h
  | cancelL =>
    cases hic : st.internalCancel with
    | some k => simp [step, hic, h]
    | none => simp [step, hic, h]

theorem run_out_ok {E T : Type} (att : Nat → LeafB E T)
    (s : List (Ev E T)) :
    (runLoop att s).out.all Outcome.isOk = true := by
  unfold runLoop
  induction s using List.reverseRecOn with
  | nil =>
    exact loopIter_out_ok att {} rfl
  | append_singleton xs x ih =>
    rw [List.foldl_append, List.foldl_cons, List.foldl_nil]
    exact step_out_ok att _ x ih

theorem loopIter_syncerr {E T : Type} (e : E) (st : St E T)
    (hc : st.isCancelled = false) :
    (loopIter (fun _ => LeafB.sync (.err e)) st).attempts.length
        = st.attempts.length + 1 ∧
      (loopIter (fun _ => LeafB.sync (.err e)) st).timeoutPending = true ∧
      (loopIter (fun _ => LeafB.sync (.err e)) st).isCancelled = false := by
  unfold loopIter
  rw [if_neg (by simp [hc])]
  refine ⟨?_, ?_, ?_⟩
  · simp [hc, setSettled]
  · simp [hc]
  · simp [hc]

theorem retry_states {E T : Type} (e : E) : ∀ (n : Nat),
    (runLoop (fun _ => LeafB.sync (.err e))
        (List.replicate n (Ev.timerFire : Ev E T))).attempts.length = n + 1 ∧
      (runLoop (fun _ => LeafB.sync (.err e))
        (List.replicate n (Ev.timerFire : Ev E T))).timeoutPending = true ∧
      (runLoop (fun _ => LeafB.sync (.err e))
        (List.replicate n (Ev.timerFire : Ev E T))).isCancelled = false := by
  intro n
  induction n with
  | zero =>
    have h0 := loopIter_syncerr (T := T) e {} rfl
    exact ⟨h0.1, h0.2.1, h0.2.2⟩
  | succ n ih =>
    unfold runLoop at ih ⊢
    rw [List.replicate_succ', List.foldl_append, List.foldl_cons,
      List.foldl_nil]
    simp only [step]
    rw [if_pos ih.2.1]
    have hstep := loopIter_syncerr (T := T) e
      { (List.replicate n (Ev.timerFire : Ev E T)).foldl
          (step (fun _ => LeafB.sync (.err e)))
          (forkLoop (fun _ => LeafB.sync (.err e))) with
        timeoutPending := false } ih.2.2
    refine ⟨?_, hstep.2.1, hstep.2.2⟩
    rw [hstep.1]
    have := ih.1
    simpa using this

end LoopM

/-- Claim C6: once the cancel handle returned by forking
`Task.loop(interval, task)` has been invoked, no further attempt of the
wrapped task ever starts and no late settlement resolves the loop: for
every attempt behavior and schedule, the events after the cancellation
leave the number of started attempts and the delivered outcomes exactly
as they were at the moment of cancellation. -/
theorem loop_cancel_stops_loop (E T : Type) (att : Nat → LeafB E T)
    (s1 s2 : List (LoopM.Ev E T)) :
    (LoopM.runLoop att (s1 ++ LoopM.Ev.cancelL :: s2)).attempts.length
        = (LoopM.runLoop att (s1 ++ [LoopM.Ev.cancelL])).attempts.length ∧
      (LoopM.runLoop att (s1 ++ LoopM.Ev.cancelL :: s2)).out
        = (LoopM.runLoop att (s1 ++ [LoopM.Ev.cancelL])).out := by
  have hsplit : s1 ++ LoopM.Ev.cancelL :: s2
      = (s1 ++ [LoopM.Ev.cancelL]) ++ s2 := by
    simp
  rw [hsplit]
  clear hsplit
  unfold LoopM.runLoop
  rw [List.foldl_append]
  set base := (s1 ++ [LoopM.Ev.cancelL]).foldl (LoopM.step att)
    (LoopM.forkLoop att) with hbase
  have hbc : base.isCancelled = true := by
    rw [hbase, List.foldl_append, List.foldl_cons, List.foldl_nil]
    exact LoopM.step_cancelL_cancelled att _
  clear hbase
  induction s2 using List.reverseRecOn with
  | nil => exact ⟨rfl, rfl⟩
  | append_singleton xs x ih =>
    rw [List.foldl_append, List.foldl_cons, List.foldl_nil]
    have hxc : (xs.foldl (LoopM.step att) base).isCancelled = true := by
      clear ih
      induction xs using List.reverseRecOn with
      | nil => exact hbc
      | append_singleton ys y ih2 =>
        rw [List.foldl_append, List.foldl_cons, List.foldl_nil]
        exact (LoopM.step_cancelled_frozen att _ y ih2).2.2
    have hfrozen := LoopM.step_cancelled_frozen att
      (xs.foldl (LoopM.step att) base) x hxc
    exact ⟨hfrozen.1.trans ih.1, hfrozen.2.1.trans ih.2⟩

/-- Claim C10: the task returned by `Task.loop(interval, task)` never
invokes its reject callback on any fork — every delivered outcome of any
run is a success — and failure of the wrapped task only schedules another
attempt without any maximum-attempt bound: with an always-failing wrapped
task, after `n` timer fires `n + 1` attempts have started and another
timer is always pending. -/
theorem loop_never_rejects (E T : Type) (att : Nat → LeafB E T)
    (s : List (LoopM.Ev E T)) (e : E) (n : Nat) :
    (LoopM.runLoop att s).out.all Outcome.isOk = true ∧
      (LoopM.runLoop (fun _ => LeafB.sync (.err e))
          (List.replicate n
            (LoopM.Ev.timerFire : LoopM.Ev E T))).attempts.length
        = n + 1 ∧
      (LoopM.runLoop (fun _ => LeafB.sync (.err e))
          (List.replicate n
            (LoopM.Ev.timerFire : LoopM.Ev E T))).timeoutPending = true :=
  ⟨LoopM.run_out_ok att s, (LoopM.retry_states e n).1,
    (LoopM.retry_states e n).2.1⟩

end Taskarian
